import Mathlib

/-!
Verification of the avitolog scraping pipeline (Go) against its
natural-language specification.

The development is a shallow embedding: the pure field normalizers
(`cleanText`, `normalizeURL`, `parsePrice`, `parseDate`), the category-merge
logic of the live `GetCategories`, the static fallback `GetCategories`, the
listing extraction of `GetListings`, the enrichment `GetListingDetails` and
the rate limiter `waitForRateLimit` are translated to Lean functions.
HTML documents are abstracted to the values the code's CSS selectors yield
(the standard seam: the goquery/colly document object is a black box whose
extraction callbacks only consume selector results), and the shared-state rate limiter
is given an explicit interleaving semantics.

Go strings are modelled as Lean `String`/`List Char`; byte-level operations
used by the code (`strings.Contains`, `strings.HasPrefix`, single-character
`strings.ReplaceAll`/`strings.Split`) coincide with character-level ones on
valid UTF-8, which is what both sides assume. `float64` prices are modelled
as exact rationals (`ℚ`); the only numeric price value a claim pins down,
1234.50, is exactly representable, so no rounding issue arises.
-/

/-! ## Basic character and string helpers (models of Go stdlib functions) -/

/-- Models Go `unicode.IsSpace`: the Unicode White_Space property
(`\t \n \v \f \r ' '`, NEL, NBSP, U+1680, U+2000–U+200A, U+2028, U+2029,
U+202F, U+205F, U+3000). -/
def isGoSpace (c : Char) : Bool :=
  c = ' ' || c = '\t' || c = '\n' || c = '\x0b' || c = '\x0c' || c = '\r' ||
  c = '\x85' || c = '\xa0' || c = '\u1680' ||
  ('\u2000' ≤ c && c ≤ '\u200a') ||
  c = '\u2028' || c = '\u2029' || c = '\u202f' || c = '\u205f' || c = '\u3000'

/-- Models Go `strings.TrimSpace` on the character list: drop White_Space
characters from both ends. -/
def trimSpaceL (l : List Char) : List Char :=
  ((l.dropWhile isGoSpace).reverse.dropWhile isGoSpace).reverse

/-- String wrapper for `trimSpaceL`; models `strings.TrimSpace`. -/
def trimS (s : String) : String := ⟨trimSpaceL s.data⟩

/-- Boolean prefix test on character lists: `startsL pat l` holds iff `pat`
is a prefix of `l`. Models the comparison done by Go `strings.HasPrefix`. -/
def startsL : List Char → List Char → Bool
  | [], _ => true
  | _ :: _, [] => false
  | p :: ps, c :: cs => p == c && startsL ps cs

/-- Models Go `strings.HasPrefix s pat`. -/
def strStarts (s pat : String) : Bool := startsL pat.data s.data

/-- Boolean substring test: `hasSub pat l` holds iff `pat` occurs
contiguously in `l`. Models Go `strings.Contains`. -/
def hasSub : List Char → List Char → Bool
  | pat, [] => pat.isEmpty
  | pat, c :: cs => startsL pat (c :: cs) || hasSub pat cs

/-- Models Go `strings.Contains s pat`. -/
def strHas (s pat : String) : Bool := hasSub pat.data s.data

/-! ## cleanText (src/internal/parser/categories.go, lines 410–416) -/

/-- Single pass of Go `strings.Fields`: accumulate the current field in
reverse, emit it at each whitespace boundary. -/
def fieldsAux : List Char → List Char → List (List Char)
  | [], acc => if acc.isEmpty then [] else [acc.reverse]
  | c :: cs, acc =>
    if isGoSpace c then
      (if acc.isEmpty then fieldsAux cs [] else acc.reverse :: fieldsAux cs [])
    else fieldsAux cs (c :: acc)

/-- Models Go `strings.Fields`: split around runs of White_Space characters,
returning the maximal whitespace-free chunks. -/
def fieldsL (l : List Char) : List (List Char) := fieldsAux l []

/-- Embedding of `cleanText` on character lists: replace `'\n'` by a space
(`strings.ReplaceAll(text, "\n", " ")`), split into fields, join with single
spaces (`strings.Join(strings.Fields(cleaned), " ")`), and trim
(`strings.TrimSpace`). -/
def cleanTextL (l : List Char) : List Char :=
  trimSpaceL (List.intercalate [' ']
    (fieldsL (l.map (fun c => if c = '\n' then ' ' else c))))

/-- Embedding of `cleanText` (removes extra whitespace and normalizes text). -/
def cleanText (s : String) : String := ⟨cleanTextL s.data⟩

/-- Property checker used to state the spec's invariant: no two consecutive
White_Space characters occur in the list. -/
def noDoubleSpace : List Char → Bool
  | [] => true
  | [_] => true
  | a :: b :: rest => !(isGoSpace a && isGoSpace b) && noDoubleSpace (b :: rest)

/-- Property checker used to state the spec's invariant: the list neither
starts nor ends with a White_Space character. -/
def noSpaceEnds (l : List Char) : Bool :=
  (match l.head? with
   | some c => !isGoSpace c
   | none => true) &&
  (match l.getLast? with
   | some c => !isGoSpace c
   | none => true)

/-- The invariant of `strings.Fields` output: every field is non-empty and
contains no White_Space character. -/
def goodFields (fs : List (List Char)) : Prop :=
  ∀ f ∈ fs, f ≠ [] ∧ ∀ c ∈ f, isGoSpace c = false

/-! ## normalizeURL (src/internal/parser/categories.go, lines 418–444) -/

/-- The fixed base origin of the scraper (`baseURL` constant in the source). -/
def baseURL : String := "https://www.avito.ru"

/-- ASCII letter test, as used by Go `net/url`'s scheme grammar. -/
def isAlphaASCII (c : Char) : Bool :=
  ('a' ≤ c && c ≤ 'z') || ('A' ≤ c && c ≤ 'Z')

/-- Characters allowed after the first letter of a URL scheme
(`net/url.getScheme`): letters, digits, `+`, `-`, `.`. -/
def isSchemeCh (c : Char) : Bool :=
  isAlphaASCII c || c.isDigit || c = '+' || c = '-' || c = '.'

/-- Scans for the `':'` that terminates a URL scheme, requiring every
character before it to be a valid scheme character. -/
def schemeTail : List Char → Bool
  | [] => false
  | c :: cs => if c = ':' then true else isSchemeCh c && schemeTail cs

/-- A URL string has a scheme per Go `net/url`'s grammar: an ASCII letter,
then scheme characters, then `':'`. -/
def hasScheme (s : String) : Bool :=
  match s.data with
  | [] => false
  | c :: cs => isAlphaASCII c && schemeTail cs

/-- Model of `url.Parse(href) succeeds && parsedURL.IsAbs()`, the combined
predicate `normalizeURL` branches on (the code returns the same joined value
for a parse failure and for a relative parse result, so only this combination
matters). A parsed URL is absolute iff a scheme was found, and a scheme
requires the grammar of `hasScheme`; this model treats parsing as succeeding
whenever that grammar matches, which over-approximates `url.Parse` (invalid
percent escapes after a scheme also fail parsing) but is exact on every input
the concrete theorems below evaluate it at — in particular on all
scheme-free inputs, where `url.Parse` either succeeds with a relative result
or fails, and both outcomes map to `false`. -/
def urlParseIsAbs (href : String) : Bool := hasScheme href

/-- Embedding of `normalizeURL`, parametric in the library predicate
`parseAbs` abstracting `url.Parse`/`IsAbs` (see `urlParseIsAbs`):
return unchanged when the string starts with `"http"`; prefix `"https:"`
for protocol-relative input; prefix the base origin for root-relative input;
return unchanged when parsing yields an absolute URL; otherwise join to the
base origin with `"/"`. -/
def normalizeURL (parseAbs : String → Bool) (href : String) : String :=
  if strStarts href "http" then href
  else if strStarts href "//" then "https:" ++ href
  else if strStarts href "/" then baseURL ++ href
  else if parseAbs href then href
  else baseURL ++ "/" ++ href

/-- The source's `normalizeURL` with the modelled `net/url` predicate
plugged in; used by the embeddings of the category and listing extractors. -/
def normalizeURLGo (href : String) : String := normalizeURL urlParseIsAbs href

/-- Statement of the claim's (and spec's) algorithm for `normalizeURL`,
written from the spec's words for comparison with the code: return `href`
unchanged if it already has a scheme; prefix `"https:"` if it starts with
`"//"`; prefix the base origin if it starts with `"/"`; otherwise (parse
failure or still-relative parse result) join to the base origin with `"/"`. -/
def normalizeURLSpec (parseAbs : String → Bool) (href : String) : String :=
  if hasScheme href then href
  else if strStarts href "//" then "https:" ++ href
  else if strStarts href "/" then baseURL ++ href
  else if parseAbs href then href
  else baseURL ++ "/" ++ href

/-! ## parsePrice (src/internal/parser/categories.go, lines 1138–1169) -/

/-- Price record (`models.Price`): `value` is Go `float64`, modelled as an
exact rational (see the file header). -/
structure Price where
  value : ℚ
  currency : String
  text : String
deriving DecidableEq, Repr

/-- The character class of the Go regex `[\d\s,.]+` used by `parsePrice`:
ASCII digits, Go regexp `\s` (`[\t\n\f\r ]`), comma and dot. -/
def priceClass (c : Char) : Bool :=
  c.isDigit || c = '\t' || c = '\n' || c = '\x0c' || c = '\r' || c = ' ' ||
  c = ',' || c = '.'

/-- Leftmost maximal run of characters satisfying `p`; models
`regexp.FindString` for a pattern of the form `[class]+` (RE2 returns the
leftmost match, and greediness makes it maximal). Returns `[]` when no
character matches, which models `FindString`'s empty result. -/
def firstRunL (p : Char → Bool) : List Char → List Char
  | [] => []
  | c :: cs => if p c then c :: cs.takeWhile p else firstRunL p cs

/-- Numeric value of a digit list, most significant first. -/
def digitsVal (l : List Char) : ℕ :=
  l.foldl (fun a c => a * 10 + (c.toNat - 48)) 0

/-- Model of Go `strconv.ParseFloat` restricted to the alphabet reachable in
`parsePrice` (digits, `'.'`, and residual `\t \n \f \r` which always fail):
the accepted forms are `digits`, `digits.`, `.digits`, `digits.digits` —
at least one digit, at most one dot, nothing else. The value is returned as
the exact decimal rational; `ParseFloat` additionally rounds to the nearest
`float64`, which is irrelevant to the claims settled here (the single
numeric value a claim fixes, 1234.50, is exactly representable). -/
def goParseFloat (l : List Char) : Option ℚ :=
  let ip := l.takeWhile Char.isDigit
  match l.dropWhile Char.isDigit with
  | [] => if ip.isEmpty then none else some (digitsVal ip)
  | c :: fracPart =>
    if c = '.' then
      if fracPart.all Char.isDigit then
        if ip.isEmpty && fracPart.isEmpty then none
        else some ((digitsVal ip : ℚ) + (digitsVal fracPart : ℚ) / 10 ^ fracPart.length)
      else none
    else none

/-- Embedding of `parsePrice`: keep the raw text, pick the currency by symbol
presence (`$` → USD, `€` → EUR, default RUB), extract the first run matching
`[\d\s,.]+`, strip `' '` (`strings.ReplaceAll(matches, " ", "")`), turn `','`
into `'.'`, and parse; on failure the value stays `0`. -/
def parsePrice (priceText : String) : Price :=
  let currency :=
    if strHas priceText "$" then "USD"
    else if strHas priceText "€" then "EUR"
    else "RUB"
  let found := firstRunL priceClass priceText.data
  let value :=
    if found.isEmpty then 0
    else
      let valueStr := (found.filter (fun c => c ≠ ' ')).map
        (fun c => if c = ',' then '.' else c)
      match goParseFloat valueStr with
      | some v => v
      | none => 0
  ⟨value, currency, priceText⟩


/-! ## parseDate (src/internal/parser/categories.go, lines 1171–1209) -/

/-- Calendar timestamp, modelling the fields of Go `time.Time` the claims
inspect (a single location is assumed throughout, matching the source which
only ever uses `now.Location()`; sub-second precision is never consulted). -/
structure DateTime where
  year : Int
  month : Int
  day : Int
  hour : Int
  minute : Int
  second : Int
deriving DecidableEq, Repr

/-- Gregorian leap-year rule, as in Go `time.isLeap`. -/
def isLeapYear (y : Int) : Bool :=
  y % 4 = 0 && (y % 100 ≠ 0 || y % 400 = 0)

/-- Days in a month, as in Go `time.daysIn`. -/
def daysInMonth (y m : Int) : Int :=
  if m = 2 then (if isLeapYear y then 29 else 28)
  else if m = 4 || m = 6 || m = 9 || m = 11 then 30
  else 31

/-- Models `time.Date(y, m, d, 0, 0, 0, 0, loc)`: the Go function fully
normalizes out-of-range values; this model performs at most one month of
normalization in either direction, which covers every argument the embedded
`parseDate` can produce (a month from a valid clock or a parsed layout, and
a day that is off by at most one from a valid range). -/
def goTimeDate (y m d : Int) : DateTime :=
  if d < 1 then
    (if m = 1 then ⟨y - 1, 12, 31 + d, 0, 0, 0⟩
     else ⟨y, m - 1, daysInMonth y (m - 1) + d, 0, 0, 0⟩)
  else if d > daysInMonth y m then
    (if m = 12 then ⟨y + 1, 1, d - 31, 0, 0, 0⟩
     else ⟨y, m + 1, d - daysInMonth y m, 0, 0, 0⟩)
  else ⟨y, m, d, 0, 0, 0⟩

/-- Models `unicode.ToLower` (as used by `strings.ToLower`) on the alphabets
the scraper meets: ASCII letters and the basic Cyrillic block (А–Я, Ё).
Other characters are kept; for the claims below only the facts that the
lowercase Cyrillic tokens are fixed points and that uppercase Cyrillic
letters map onto them matter, and full `ToLower` agrees on those. -/
def charToLower (c : Char) : Char :=
  if 'A' ≤ c && c ≤ 'Z' then Char.ofNat (c.toNat + 32)
  else if 'А' ≤ c && c ≤ 'Я' then Char.ofNat (c.toNat + 32)
  else if c = 'Ё' then 'ё'
  else c

/-- The preprocessing of `parseDate`:
`dateStr = strings.ToLower(strings.TrimSpace(dateStr))`. -/
def lowTrim (s : String) : List Char := (trimSpaceL s.data).map charToLower

/-- Components of a Go `time` layout string, restricted to the pieces
occurring in the source's format list: `02` (zero-padded day), `01`
(zero-padded month), `2006` (4-digit year), `06` (2-digit year), and
literal text (which is what the Cyrillic month names are to `time.Parse`,
since they contain no ASCII reference patterns). -/
inductive FmtItem where
  | day2
  | month2
  | year4
  | year2
  | lit (s : List Char)

/-- Intermediate parse record of `time.Parse`: year defaults to 0, month and
day to 1 when the layout lacks them. -/
structure RawDate where
  year : Int
  month : Int
  day : Int
deriving DecidableEq

/-- Go `time` internal `getnum` with `fixed = true`: exactly two digits. -/
def getnum2 : List Char → Option (Int × List Char)
  | c1 :: c2 :: rest =>
    if c1.isDigit && c2.isDigit then
      some ((((c1.toNat - 48) * 10 + (c2.toNat - 48) : ℕ) : Int), rest)
    else none
  | _ => none

/-- Go `time.Parse` handling of `stdLongYear` (`2006`): the first character
must be a digit, then four characters are consumed and passed to `atoi`, so
all four must be digits. -/
def getYear4 : List Char → Option (Int × List Char)
  | c1 :: c2 :: c3 :: c4 :: rest =>
    if c1.isDigit && c2.isDigit && c3.isDigit && c4.isDigit then
      some (((digitsVal [c1, c2, c3, c4] : ℕ) : Int), rest)
    else none
  | _ => none

/-- Go `time.Parse` handling of `stdYear` (`06`): two characters passed to
`atoi`, which also accepts a sign followed by one digit. -/
def getYear2 : List Char → Option (Int × List Char)
  | c1 :: c2 :: rest =>
    if c1.isDigit && c2.isDigit then
      some ((((c1.toNat - 48) * 10 + (c2.toNat - 48) : ℕ) : Int), rest)
    else if (c1 = '-' || c1 = '+') && c2.isDigit then
      some ((if c1 = '-' then -(((c2.toNat - 48 : ℕ) : Int)) else ((c2.toNat - 48 : ℕ) : Int)), rest)
    else none
  | _ => none

/-- Walks a layout over the input as `time.Parse` does: fixed-width numeric
components, literal chunks matched exactly, trailing input rejected
("extra text"), the month validated on the spot, the 2-digit year mapped to
19xx/20xx. -/
def runItems : List FmtItem → List Char → RawDate → Option RawDate
  | [], s, acc => if s.isEmpty then some acc else none
  | .day2 :: rest, s, acc =>
    match getnum2 s with
    | some (d, s') => runItems rest s' ⟨acc.year, acc.month, d⟩
    | none => none
  | .month2 :: rest, s, acc =>
    match getnum2 s with
    | some (m, s') =>
      if 1 ≤ m && m ≤ 12 then runItems rest s' ⟨acc.year, m, acc.day⟩ else none
    | none => none
  | .year4 :: rest, s, acc =>
    match getYear4 s with
    | some (y, s') => runItems rest s' ⟨y, acc.month, acc.day⟩
    | none => none
  | .year2 :: rest, s, acc =>
    match getYear2 s with
    | some (y, s') =>
      runItems rest s' ⟨if y ≥ 69 then y + 1900 else y + 2000, acc.month, acc.day⟩
    | none => none
  | .lit pat :: rest, s, acc =>
    if startsL pat s then runItems rest (s.drop pat.length) acc else none

/-- Models `time.Parse(format, value)` for the source's six layouts: run the
layout, then validate the day of the month against the (possibly defaulted)
month and year, as Go does after the scan. The resulting clock is midnight
(none of the layouts carry time components). -/
def goTimeParse (fmt : List FmtItem) (s : List Char) : Option DateTime :=
  match runItems fmt s ⟨0, 1, 1⟩ with
  | some r =>
    if 1 ≤ r.day && r.day ≤ daysInMonth r.year r.month then
      some ⟨r.year, r.month, r.day, 0, 0, 0⟩
    else none
  | none => none

/-- The source's ordered list of layouts: `"02 января 2006"`, `"02 января"`,
`"02 янв 2006"`, `"02 янв"`, `"02.01.2006"`, `"02.01.06"` (the Cyrillic
month names are literal text to `time.Parse`). -/
def avitoFormats : List (List FmtItem) :=
  [[.day2, .lit " января ".data, .year4],
   [.day2, .lit " января".data],
   [.day2, .lit " янв ".data, .year4],
   [.day2, .lit " янв".data],
   [.day2, .lit ".".data, .month2, .lit ".".data, .year4],
   [.day2, .lit ".".data, .month2, .lit ".".data, .year2]]

/-- The format-cascade tail of `parseDate`: try each layout in order; on
success substitute the current year when the parsed year is 0 (a layout
without a year component); when every layout fails, return `now`. -/
def tryFormats (now : DateTime) (ds : List Char) : List (List FmtItem) → DateTime
  | [] => now
  | f :: fs =>
    match goTimeParse f ds with
    | some t => if t.year = 0 then goTimeDate now.year t.month t.day else t
    | none => tryFormats now ds fs

/-- Embedding of `parseDate`: lower-case and trim, map "сегодня" to today's
midnight and "вчера" to `time.Date` of day − 1, otherwise run the format
cascade with the "unknown → now" fallback. `now` is passed explicitly
(the Go code reads `time.Now()`). -/
def parseDate (dateStr : String) (now : DateTime) : DateTime :=
  let ds := lowTrim dateStr
  if hasSub "сегодня".data ds then goTimeDate now.year now.month now.day
  else if hasSub "вчера".data ds then goTimeDate now.year now.month (now.day - 1)
  else tryFormats now ds avitoFormats

/-- Validity of a clock reading: the calendar fields are in range. -/
def validDate (t : DateTime) : Bool :=
  1 ≤ t.month && t.month ≤ 12 && 1 ≤ t.day && t.day ≤ daysInMonth t.year t.month

/-- Midnight (00:00:00) of the same calendar day. -/
def midnightOf (t : DateTime) : DateTime := ⟨t.year, t.month, t.day, 0, 0, 0⟩

/-- The previous calendar day, written from the spec's words (used to state
what "вчера" should produce): day − 1 within a month, else the last day of
the previous month, else December 31 of the previous year. -/
def prevCalendarDay (t : DateTime) : DateTime :=
  if t.day > 1 then ⟨t.year, t.month, t.day - 1, t.hour, t.minute, t.second⟩
  else if t.month > 1 then
    ⟨t.year, t.month - 1, daysInMonth t.year (t.month - 1), t.hour, t.minute, t.second⟩
  else ⟨t.year - 1, 12, 31, t.hour, t.minute, t.second⟩

/-! ## Category model (src/internal/models/category.go) -/

/-- Category record (`models.Category`): name, absolute URL, subcategories. -/
inductive Category where
  | mk (name : String) (url : String) (subcategories : List Category)
deriving Repr

/-- Name of a category. -/
def Category.name : Category → String
  | .mk n _ _ => n

/-- URL of a category. -/
def Category.url : Category → String
  | .mk _ u _ => u

/-- Subcategories of a category. -/
def Category.subcategories : Category → List Category
  | .mk _ _ s => s

mutual

/-- Every URL appearing anywhere in a category tree. -/
def catURLs : Category → List String
  | .mk _ u subs => u :: catsURLs subs

/-- Every URL appearing anywhere in a forest of category trees. -/
def catsURLs : List Category → List String
  | [] => []
  | c :: cs => catURLs c ++ catsURLs cs

end

/-! ## Static fallback GetCategories
(src/internal/parser/categories.go, lines 15–149) -/

/-- Embedding of the static `GetCategories`: the hard-coded category tree,
returned together with a `nil` error (modelled as `none`). -/
def GetCategoriesStatic : List Category × Option String :=
  ([.mk "Транспорт" "https://www.avito.ru/all/transport"
      [.mk "Автомобили" "https://www.avito.ru/all/avtomobili" [],
       .mk "Мотоциклы и мототехника" "https://www.avito.ru/all/mototsikly_i_mototehnika" [],
       .mk "Грузовики и спецтехника" "https://www.avito.ru/all/gruzoviki_i_spetstehnika" [],
       .mk "Водный транспорт" "https://www.avito.ru/all/vodnyy_transport" [],
       .mk "Запчасти и аксессуары" "https://www.avito.ru/all/zapchasti_i_aksessuary" []],
    .mk "Недвижимость" "https://www.avito.ru/all/nedvizhimost"
      [.mk "Купить жильё" "https://www.avito.ru/all/nedvizhimost/kvartiry/prodam" [],
       .mk "Путешествия" "https://www.avito.ru/all/nedvizhimost/kvartiry/posutochno" [],
       .mk "Снять долгосрочно" "https://www.avito.ru/all/nedvizhimost/kvartiry/sdam" [],
       .mk "Коммерческая недвижимость" "https://www.avito.ru/all/kommercheskaya_nedvizhimost" [],
       .mk "Дома, дачи, коттеджи" "https://www.avito.ru/all/doma_dachi_kottedzhi" [],
       .mk "Земельные участки" "https://www.avito.ru/all/zemelnye_uchastki" [],
       .mk "Гаражи и машиноместа" "https://www.avito.ru/all/garazhi_i_mashinomesta" []],
    .mk "Работа" "https://www.avito.ru/all/rabota"
      [.mk "Вакансии" "https://www.avito.ru/all/vakansii" [],
       .mk "Резюме" "https://www.avito.ru/all/rezume" []],
    .mk "Услуги" "https://www.avito.ru/all/predlozheniya_uslug"
      [.mk "Строительство и ремонт" "https://www.avito.ru/all/predlozheniya_uslug/stroitelstvo_remont_montazh" [],
       .mk "Перевозки и аренда транспорта" "https://www.avito.ru/all/predlozheniya_uslug/perevozki_i_arenda_transporta" [],
       .mk "Красота и здоровье" "https://www.avito.ru/all/predlozheniya_uslug/krasota_zdorove" [],
       .mk "Обучение и курсы" "https://www.avito.ru/all/predlozheniya_uslug/obuchenie_kursy" [],
       .mk "Установка техники" "https://www.avito.ru/all/predlozheniya_uslug/remont_i_obsluzhivanie_tehniki" [],
       .mk "Деловые услуги" "https://www.avito.ru/all/predlozheniya_uslug/delovye_uslugi" [],
       .mk "Мастер на час" "https://www.avito.ru/all/predlozheniya_uslug/master_na_chas" [],
       .mk "Автосервис" "https://www.avito.ru/all/predlozheniya_uslug/transport_perevozki/avtoservis" [],
       .mk "Уборка и помощь по хозяйству" "https://www.avito.ru/all/predlozheniya_uslug/bytovye_uslugi" []],
    .mk "Личные вещи" "https://www.avito.ru/all/lichnye_veschi"
      [.mk "Одежда, обувь, аксессуары" "https://www.avito.ru/all/odezhda_obuv_aksessuary" [],
       .mk "Детская одежда и обувь" "https://www.avito.ru/all/detskaya_odezhda_i_obuv" [],
       .mk "Товары для детей и игрушки" "https://www.avito.ru/all/tovary_dlya_detey_i_igrushki" [],
       .mk "Часы и украшения" "https://www.avito.ru/all/chasy_i_ukrasheniya" [],
       .mk "Красота и здоровье" "https://www.avito.ru/all/krasota_i_zdorove" []],
    .mk "Для дома и дачи" "https://www.avito.ru/all/dlya_doma_i_dachi"
      [.mk "Бытовая техника" "https://www.avito.ru/all/bytovaya_tehnika" [],
       .mk "Мебель и интерьер" "https://www.avito.ru/all/mebel_i_interer" [],
       .mk "Посуда и товары для кухни" "https://www.avito.ru/all/posuda_i_tovary_dlya_kuhni" [],
       .mk "Продукты питания" "https://www.avito.ru/all/produkty_pitaniya" [],
       .mk "Ремонт и строительство" "https://www.avito.ru/all/remont_i_stroitelstvo" [],
       .mk "Растения" "https://www.avito.ru/all/rasteniya" []],
    .mk "Запчасти и аксессуары" "https://www.avito.ru/all/zapchasti_i_aksessuary"
      [.mk "Запчасти" "https://www.avito.ru/all/zapchasti_i_aksessuary/zapchasti" [],
       .mk "Шины, диски и колёса" "https://www.avito.ru/all/zapchasti_i_aksessuary/shiny_diski_i_kolesa" [],
       .mk "Аксессуары" "https://www.avito.ru/all/zapchasti_i_aksessuary/aksessuary" [],
       .mk "Автозвук" "https://www.avito.ru/all/zapchasti_i_aksessuary/avtozvuk" [],
       .mk "Инструменты" "https://www.avito.ru/all/zapchasti_i_aksessuary/instrumenty" [],
       .mk "Мототехника" "https://www.avito.ru/all/zapchasti_i_aksessuary/mototsikly_mopedy/zapchasti_i_aksessuary" []],
    .mk "Электроника" "https://www.avito.ru/all/bytovaya_elektronika"
      [.mk "Аудио и видео" "https://www.avito.ru/all/audio_i_video" [],
       .mk "Игры, приставки и программы" "https://www.avito.ru/all/igry_pristavki_i_programmy" [],
       .mk "Компьютеры, ноутбуки и ПО" "https://www.avito.ru/all/nastolnye_kompyutery" [],
       .mk "Оргтехника и расходники" "https://www.avito.ru/all/orgtehnika_i_rashodniki" [],
       .mk "Планшеты и электронные книги" "https://www.avito.ru/all/planshety_i_elektronnye_knigi" [],
       .mk "Телефоны" "https://www.avito.ru/all/telefony" [],
       .mk "Товары для компьютера" "https://www.avito.ru/all/tovary_dlya_kompyutera" [],
       .mk "Фототехника" "https://www.avito.ru/all/fototehnika" []],
    .mk "Хобби и отдых" "https://www.avito.ru/all/hobbi_i_otdyh"
      [.mk "Билеты и путешествия" "https://www.avito.ru/all/bilety_i_puteshestviya" [],
       .mk "Велосипеды" "https://www.avito.ru/all/velosipedy" [],
       .mk "Книги и журналы" "https://www.avito.ru/all/knigi_i_zhurnaly" [],
       .mk "Коллекционирование" "https://www.avito.ru/all/kollektsionirovanie" [],
       .mk "Музыкальные инструменты" "https://www.avito.ru/all/muzykalnye_instrumenty" [],
       .mk "Охота и рыбалка" "https://www.avito.ru/all/ohota_i_rybalka" [],
       .mk "Спорт и отдых" "https://www.avito.ru/all/sport_i_otdyh" []],
    .mk "Животные" "https://www.avito.ru/all/zhivotnye"
      [.mk "Собаки" "https://www.avito.ru/all/sobaki" [],
       .mk "Кошки" "https://www.avito.ru/all/koshki" [],
       .mk "Аквариумные рыбки" "https://www.avito.ru/all/akvariumnye_rybki" [],
       .mk "Птицы" "https://www.avito.ru/all/ptitsy" [],
       .mk "Грызуны" "https://www.avito.ru/all/gryzuny" [],
       .mk "Товары для животных" "https://www.avito.ru/all/tovary_dlya_zhivotnyh" []],
    .mk "Для бизнеса" "https://www.avito.ru/all/dlya_biznesa"
      [.mk "Готовый бизнес" "https://www.avito.ru/all/gotoviy_biznes" [],
       .mk "Оборудование для бизнеса" "https://www.avito.ru/all/oborudovanie_dlya_biznesa" []]],
   none)

/-! ## Live GetCategories merge (src/internal/parser/categories.go,
lines 219–311)

The five `OnHTML` extraction rules are modelled as step functions on the
`categoryMap`. colly runs registered callbacks in registration order, each
over all of its selector's matches, so the whole merge is a fold of rule 1's
events, then rule 2's, and so on. An event carries the raw strings the
selectors yield: the element text (or the `p`/`span` descendant text) and the
`href` attribute. -/

/-- The Go `map[string]models.Category` keyed by canonical URL, modelled as
an association list with unique keys. -/
abbrev CatMap := List (String × Category)

/-- Go map read: `categoryMap[url]`. -/
def mapGet (m : CatMap) (k : String) : Option Category :=
  match List.find? (fun e => e.1 == k) m with
  | some e => some e.2
  | none => none

/-- Go map write: `categoryMap[url] = v` (replaces an existing binding). -/
def mapPut (m : CatMap) (k : String) (v : Category) : CatMap :=
  match List.find? (fun e => e.1 == k) m with
  | some _ => m.map (fun e => if e.1 == k then (k, v) else e)
  | none => m ++ [(k, v)]

/-- A fresh category entry as the rules create it:
`models.Category{Name: n, URL: u, Subcategories: []}`. -/
def mkCat (n u : String) : Category := .mk n u []

/-- Rule 1, visual rubricator grid: requires non-empty href and cleaned
name; if the URL already has an entry, fill its name only when empty,
otherwise create the entry. -/
def ruleVisualGrid (m : CatMap) (ev : String × String) : CatMap :=
  let catName := cleanText ev.1
  let href := ev.2
  if href ≠ "" && catName ≠ "" then
    let u := normalizeURLGo href
    match mapGet m u with
    | some c => if c.name = "" then mapPut m u (.mk catName c.url c.subcategories) else m
    | none => mapPut m u (mkCat catName u)
  else m

/-- Rule 2, dropdown catalog menu: requires non-empty href and cleaned name
and stores unconditionally (`categoryMap[url] = …` with no existence check). -/
def ruleDropdown (m : CatMap) (ev : String × String) : CatMap :=
  let catName := cleanText ev.1
  let href := ev.2
  if href ≠ "" && catName ≠ "" then
    let u := normalizeURLGo href
    mapPut m u (mkCat catName u)
  else m

/-- Rule 3, mini-menu: requires non-empty href and cleaned name; stores only
when the URL has no entry yet. -/
def ruleMiniMenu (m : CatMap) (ev : String × String) : CatMap :=
  let catName := cleanText ev.1
  let href := ev.2
  if href ≠ "" && catName ≠ "" then
    let u := normalizeURLGo href
    match mapGet m u with
    | some _ => m
    | none => mapPut m u (mkCat catName u)
  else m

/-- Rule 4, top navigation: requires an href starting with `"/"` and a
non-empty cleaned name; stores only when the URL has no entry yet. -/
def ruleTopNav (m : CatMap) (ev : String × String) : CatMap :=
  let catName := cleanText ev.1
  let href := ev.2
  if strStarts href "/" && catName ≠ "" then
    let u := normalizeURLGo href
    match mapGet m u with
    | some _ => m
    | none => mapPut m u (mkCat catName u)
  else m

/-- Rule 5, service tiles: the href comes from the parent element (absent
when the parent has no `href` attribute), the name from the `span` text;
stores only when the URL has no entry yet. -/
def ruleService (m : CatMap) (ev : Option String × String) : CatMap :=
  match ev.1 with
  | some href =>
    let catName := cleanText ev.2
    if href ≠ "" && catName ≠ "" then
      let u := normalizeURLGo href
      match mapGet m u with
      | some _ => m
      | none => mapPut m u (mkCat catName u)
    else m
  | none => m

/-- The merge phase of the live `GetCategories`: fold the events of the five
rules, in registration order, over the initially empty map. -/
def GetCategoriesLive (e1 e2 e3 e4 : List (String × String))
    (e5 : List (Option String × String)) : CatMap :=
  List.foldl ruleService
    (List.foldl ruleTopNav
      (List.foldl ruleMiniMenu
        (List.foldl ruleDropdown
          (List.foldl ruleVisualGrid [] e1) e2) e3) e4) e5

/-! ## Listing model (src/internal/models, Listing) and enrichment
(GetListingDetails, src/internal/parser/categories.go, lines 950–1051) -/

/-- Listing record (`models.Listing`). The `attributes` Go map is modelled
as an association list with unique keys (later writes to an existing key
replace the value, as in a Go map). -/
structure Listing where
  id : String
  title : String
  description : String
  price : Price
  url : String
  imageURLs : List String
  location : String
  categoryID : String
  categoryURL : String
  publishedAt : DateTime
  attributes : List (String × String)
deriving DecidableEq, Repr

/-- The zero `models.Price`. -/
def zeroPrice : Price := ⟨0, "", ""⟩

/-- The zero `time.Time` (January 1, year 1, 00:00:00 UTC). -/
def zeroTime : DateTime := ⟨1, 1, 1, 0, 0, 0⟩

/-- The zero `models.Listing` (Go zero value of the struct). -/
def zeroListing : Listing :=
  ⟨"", "", "", zeroPrice, "", [], "", "", "", zeroTime, []⟩

/-- Go map write for the string→string attributes map. -/
def attrPut (m : List (String × String)) (k v : String) : List (String × String) :=
  match List.find? (fun e => e.1 == k) m with
  | some _ => m.map (fun e => if e.1 == k then (k, v) else e)
  | none => m ++ [(k, v)]

/-- Models `strings.Split(l, sep)` for a single-character separator: the
chunks between occurrences of `sep`, empty chunks kept, always ≥ 1 chunk. -/
def splitOnCh (sep : Char) : List Char → List (List Char)
  | [] => [[]]
  | c :: cs =>
    if c = sep then [] :: splitOnCh sep cs
    else
      match splitOnCh sep cs with
      | h :: t => (c :: h) :: t
      | [] => [[c]]

/-- One iteration of the attribute loop in `GetListingDetails`: trim the
params-item text, skip empty, split on `":"`, and keep only texts splitting
into exactly two parts, trimming key and value. -/
def parseAttrLine (acc : List (String × String)) (txt : String) : List (String × String) :=
  let text := trimS txt
  if text ≠ "" then
    match splitOnCh ':' text.data with
    | [k, v] => attrPut acc (trimS ⟨k⟩) (trimS ⟨v⟩)
    | _ => acc
  else acc

/-- The attributes extracted from the params-list item texts. -/
def paramAttrs (texts : List String) : List (String × String) :=
  List.foldl parseAttrLine [] texts

/-- An `img` node of the gallery, abstracted to the three attributes the
code reads (`""` models an absent attribute, which the code treats
identically via its `exists && != ""` checks). -/
structure ImgNode where
  src : String
  srcset : String
  dataSrc : String
deriving DecidableEq, Repr

/-- First chunk of `strings.Split(srcset, " ")`. -/
def firstSpacePart (s : String) : String := ⟨s.data.takeWhile (fun c => c ≠ ' ')⟩

/-- The image URL contributed by one gallery `img` node: `src`, else the
first `srcset` entry, else `data-src`, else nothing. -/
def imgURLOf (n : ImgNode) : Option String :=
  if n.src ≠ "" then some n.src
  else if n.srcset ≠ "" then some (firstSpacePart n.srcset)
  else if n.dataSrc ≠ "" then some n.dataSrc
  else none

/-- A listing detail page, abstracted to the values the enrichment
callbacks' selectors yield: `fetchErr` models `c.Visit` failing (in which
case no `OnHTML` callback runs), `h1s` the texts of the `h1` elements in
document order, and the remaining fields the texts found by the respective
selector queries (`""` when the selector matches nothing, since goquery's
`.Text()` of an empty selection is empty). -/
structure DetailPage where
  fetchErr : Option String
  h1s : List String
  description : String
  galleryImgs : List ImgNode
  location : String
  priceText : String
  dateText : String
  paramTexts : List String
deriving DecidableEq, Repr

/-- The error message of the missing-URL guard
(`fmt.Errorf("listing URL is empty")`). -/
def errMissingURL : String := "listing URL is empty"

/-- The wrapped error returned when visiting the listing page fails
(`fmt.Errorf("error visiting listing page: %w", err)`). -/
def errVisit (e : String) : String := "error visiting listing page: " ++ e

/-- Embedding of `GetListingDetails`: returns the (possibly updated) listing
and the error value (`none` models a `nil` error). With an empty URL the
input is returned unchanged with the missing-URL error; with a failed visit
the callbacks never fire and the wrapped visit error is returned; otherwise
the `h1` callback (registered only when the title is empty; each firing
overwrites, so the last `h1` wins) and the `body` callback run:
description and location are assigned unconditionally from the page, images
are appended, price is parsed only when `Price.Value == 0` and the page
yields text, the publish date is parsed when the page yields date text, and
the attributes map replaces the existing one when at least one attribute
parsed. -/
def GetListingDetails (listing : Listing) (pg : DetailPage) (now : DateTime) :
    Listing × Option String :=
  if listing.url = "" then (listing, some errMissingURL)
  else
    match pg.fetchErr with
    | some e => (listing, some (errVisit e))
    | none =>
      let title :=
        if listing.title = "" then
          match pg.h1s.getLast? with
          | some h => trimS h
          | none => listing.title
        else listing.title
      let price :=
        if listing.price.value = 0 then
          (if pg.priceText ≠ "" then parsePrice pg.priceText else listing.price)
        else listing.price
      let publishedAt :=
        if pg.dateText ≠ "" then parseDate pg.dateText now else listing.publishedAt
      let attrs := paramAttrs pg.paramTexts
      ({ listing with
          title := title,
          description := trimS pg.description,
          imageURLs := listing.imageURLs ++ pg.galleryImgs.filterMap imgURLOf,
          location := trimS pg.location,
          price := price,
          publishedAt := publishedAt,
          attributes := if attrs ≠ [] then attrs else listing.attributes }, none)

/-! ## GetListings, standard (non-catalog) path
(src/internal/parser/categories.go, lines 486–687)

`GetListings` first tests `catalogRegex` (`/catalog/`) and delegates catalog
URLs to `handleCatalogPage`; the model below embeds the standard path, which
is the code the limit/cascade claims cite. The results container is
abstracted per selector: `cards i` is the list of `parseListing` outputs for
the matches of the i-th item-card selector inside
`div[data-marker='catalog-serp']`, in document order; the body-fallback is
abstracted to the page's anchors. Enrichment is abstracted by a function
`enrich` standing for "`GetListingDetails` succeeded with this result, or
failed and the summary was kept", which is all the claims inspect. -/

/-- `catalogRegex.MatchString`: the regex is the literal `/catalog/`. -/
def isCatalogURL (u : String) : Bool := strHas u "/catalog/"

/-- Acceptance test of the serp loop: `listing.ID != "" && listing.Title != ""`. -/
def acceptCard (l : Listing) : Bool := l.id ≠ "" && l.title ≠ ""

/-- The `listing.CategoryURL = categoryURL` assignment. -/
def setCatURL (categoryURL : String) (l : Listing) : Listing :=
  { l with categoryURL := categoryURL }

/-- The `ForEach` loop over one selector's item cards: an early `return` in
the colly callback only skips the current element, so elements beyond the
limit are skipped while iteration continues; accepted cards get the category
URL and are appended in document order, counting as they go. -/
def serpLoop (limit : Int) (categoryURL : String) :
    List Listing → ℕ → List Listing
  | [], _ => []
  | card :: cards, count =>
    if limit > 0 && (count : Int) ≥ limit then serpLoop limit categoryURL cards count
    else if acceptCard card then
      setCatURL categoryURL card :: serpLoop limit categoryURL cards (count + 1)
    else serpLoop limit categoryURL cards count

/-- The selector cascade inside the results container: try each item-card
selector in order and stop at the first whose loop accepted at least one
card (`if count > 0 { break }`; the count is exactly the number of listings
appended for that selector). -/
def serpCascade (limit : Int) (categoryURL : String) :
    List (List Listing) → List Listing
  | [] => []
  | sel :: rest =>
    let r := serpLoop limit categoryURL sel 0
    if r.length > 0 then r else serpCascade limit categoryURL rest

/-- An anchor element, as consumed by the body-fallback scan: its `href`,
its own text, the text of its first heading-like descendant, and the text of
the first price-like node found under it. -/
structure Anchor where
  href : String
  text : String
  childTitle : String
  priceText : String
deriving DecidableEq, Repr

/-- Model of `itemIDRegex` = `_(\d+)$|/(\d+)$` via `FindStringSubmatch`: the
maximal trailing digit run, accepted when the character right before it is
`'_'` (group 1) or `'/'` (group 2); the code assigns whichever group is
non-empty to the ID, so the net effect is the digit run itself. Returns `""`
when the regex does not match, leaving the ID unset. -/
def extractItemID (href : String) : String :=
  let rev := href.data.reverse
  let ds := rev.takeWhile Char.isDigit
  if ds.isEmpty then ""
  else
    match rev.drop ds.length with
    | c :: _ => if c = '_' || c = '/' then ⟨ds.reverse⟩ else ""
    | [] => ""

/-- The listing the body-fallback builds from an accepted anchor: title as
resolved, normalized URL, ID from the regex, price parsed when the trimmed
price text is non-empty, category URL set. -/
def fallbackListing (categoryURL : String) (a : Anchor) (title : String) : Listing :=
  { zeroListing with
      title := title,
      url := normalizeURLGo a.href,
      id := extractItemID a.href,
      price := if trimS a.priceText ≠ "" then parsePrice (trimS a.priceText) else zeroPrice,
      categoryURL := categoryURL }

/-- The title the body-fallback resolves for an anchor: its own trimmed
text, else the trimmed text of its first heading-like descendant. -/
def anchorTitle (a : Anchor) : String :=
  if trimS a.text ≠ "" then trimS a.text else trimS a.childTitle

/-- The body-fallback scan over all anchors: same limit-skip discipline as
the serp loop; only anchors whose href contains `"/item/"` and that resolve
a non-empty title are kept. -/
def fallbackLoop (limit : Int) (categoryURL : String) :
    List Anchor → ℕ → List Listing
  | [], _ => []
  | a :: rest, count =>
    if limit > 0 && (count : Int) ≥ limit then fallbackLoop limit categoryURL rest count
    else if strHas a.href "/item/" then
      if anchorTitle a ≠ "" then
        fallbackListing categoryURL a (anchorTitle a) ::
          fallbackLoop limit categoryURL rest (count + 1)
      else fallbackLoop limit categoryURL rest count
    else fallbackLoop limit categoryURL rest count

/-- A listings search page, abstracted to what the two handlers consume:
the per-selector card lists of the results container (empty when the
container is absent) and the page's anchors for the fallback. -/
structure SerpPage where
  cards : List (List Listing)
  anchors : List Anchor

/-- Embedding of `GetListings` on the standard (non-catalog) path: run the
container cascade; when it produced nothing, run the body fallback (the
body handler checks `len(listings) > 0` and returns early otherwise); when
anything was found, enrich each listing that has a URL (`enrich` abstracts a
successful or kept-on-failure `GetListingDetails` round trip, which
preserves the count). -/
def GetListings (categoryURL : String) (limit : Int) (pg : SerpPage)
    (enrich : Listing → Listing) : List Listing :=
  let fromSerp := serpCascade limit categoryURL pg.cards
  let listings :=
    if fromSerp.length > 0 then fromSerp
    else fallbackLoop limit categoryURL pg.anchors 0
  if listings.length > 0 then
    listings.map (fun l => if l.url ≠ "" then enrich l else l)
  else listings

/-! ## waitForRateLimit (src/internal/parser/categories.go, lines 460–483)

The rate limiter is one package-level variable `lastRequestTime` read and
written by `waitForRateLimit` with no synchronization whatsoever. To settle
the concurrency claim the function is embedded as a small-step interleaving
of its three shared-state-relevant actions per call: (0) read
`lastRequestTime` (the `time.Since` in `elapsed := …`), (1) sleep when the
elapsed time is under the minimum (the sleeping thread resumes when the
global clock reaches its target), (2) write `lastRequestTime = time.Now()`,
which is also the call's effective fetch timestamp. Two concurrent calls are
threads A and B; a schedule is the order in which their next actions run. -/

/-- Per-thread state of one `waitForRateLimit` call: program counter
(0 = about to read, 1 = about to sleep/skip, 2 = about to write, 3 = done),
the value of `lastRequestTime` it read, and its recorded fetch timestamp. -/
structure ThreadSt where
  pc : ℕ
  readVal : Int
  finish : Option Int
deriving DecidableEq, Repr

/-- Global state: the clock, the shared `lastRequestTime`, and two threads. -/
structure RLState where
  clock : Int
  last : Int
  thA : ThreadSt
  thB : ThreadSt
deriving DecidableEq, Repr

/-- The configured minimum interval (`minRequestInterval = 3 * time.Second`),
in seconds. -/
def minRequestInterval : Int := 3

/-- One atomic action of one `waitForRateLimit` call (see the section
comment). The sleep advances the global clock to the sleeping thread's
wake-up target; no step moves the clock backwards. -/
def rlThreadStep (clock last : Int) (t : ThreadSt) : ThreadSt × Int × Int :=
  match t.pc with
  | 0 => (⟨1, last, t.finish⟩, clock, last)
  | 1 =>
    if clock - t.readVal < minRequestInterval then
      (⟨2, t.readVal, t.finish⟩, t.readVal + minRequestInterval, last)
    else (⟨2, t.readVal, t.finish⟩, clock, last)
  | 2 => (⟨3, t.readVal, some clock⟩, clock, clock)
  | _ => (t, clock, last)

/-- Run one step of thread A (`false`) or thread B (`true`). -/
def rlStep (s : RLState) (tid : Bool) : RLState :=
  if tid then
    match rlThreadStep s.clock s.last s.thB with
    | (t, clock, last) => ⟨clock, last, s.thA, t⟩
  else
    match rlThreadStep s.clock s.last s.thA with
    | (t, clock, last) => ⟨clock, last, t, s.thB⟩

/-- Initial state: the package initializer
`lastRequestTime = time.Now().Add(-minRequestInterval)` (so the first call
never waits); both calls are issued at clock 0, i.e. less than
`minRequestInterval` apart. -/
def rlInit : RLState := ⟨0, -minRequestInterval, ⟨0, 0, none⟩, ⟨0, 0, none⟩⟩

/-- Execute a schedule from the initial state. -/
def rlRun (sched : List Bool) : RLState := sched.foldl rlStep rlInit

/-! # Theorems

Shared helper lemmas first, then one theorem per claim (with its
counterexample and witness where applicable). -/

/-! ## Boolean string predicates vs. propositional sublist relations -/

theorem startsL_iff {p l : List Char} : startsL p l = true ↔ p <+: l := by
  induction p generalizing l with
  | nil => simp [startsL]
  | cons a ps ih =>
    cases l with
    | nil => simp [startsL]
    | cons c cs => simp [startsL, List.cons_prefix_cons, ih]

theorem hasSub_iff {p l : List Char} : hasSub p l = true ↔ p <:+: l := by
  induction l with
  | nil => simp [hasSub, List.isEmpty_iff]
  | cons c cs ih => simp [hasSub, List.infix_cons_iff, startsL_iff, ih]

theorem strStarts_iff {s pat : String} : strStarts s pat = true ↔ pat.data <+: s.data := by
  simp [strStarts, startsL_iff]

/-! ## Claim C1: parsePrice -/

/-- Claim C1: for every input string `raw`, `parsePrice raw` keeps `text`
equal to `raw` unchanged (even when numeric parsing fails, `value` stays 0
and no error is produced), picks the currency by symbol presence (`$` → USD,
`€` → EUR, else RUB), and computes `value` from the first contiguous run of
digits/whitespace/commas/dots by stripping spaces, turning commas into
decimal points and parsing as a number (0 on failure); in particular
`parsePrice "1 234,50 $" = {value: 1234.50, currency: "USD",
text: "1 234,50 $"}`, and `parsePrice "бесплатно"` degrades to value 0 with
the raw text kept. -/
theorem claim_C1_parsePrice (raw : String) :
    (parsePrice raw).text = raw ∧
    (parsePrice raw).currency =
      (if strHas raw "$" then "USD" else if strHas raw "€" then "EUR" else "RUB") ∧
    (parsePrice raw).value =
      ((goParseFloat (((firstRunL priceClass raw.data).filter fun c => c ≠ ' ').map
        fun c => if c = ',' then '.' else c)).getD 0) ∧
    parsePrice "1 234,50 $" = ⟨1234.5, "USD", "1 234,50 $"⟩ ∧
    parsePrice "бесплатно" = ⟨0, "RUB", "бесплатно"⟩ := by
  refine ⟨rfl, rfl, ?_, ?_, rfl⟩
  · by_cases h : (firstRunL priceClass raw.data).isEmpty
    · have h' : firstRunL priceClass raw.data = [] := by simpa using h
      simp [parsePrice, h', goParseFloat]
    · simp only [parsePrice]
      rw [if_neg h]
      cases hg : goParseFloat (((firstRunL priceClass raw.data).filter fun c => c ≠ ' ').map
        fun c => if c = ',' then '.' else c) <;> simp [hg]
  · have hv : (parsePrice "1 234,50 $").value =
        (digitsVal "1234".data : ℚ) + (digitsVal "50".data : ℚ) / 10 ^ 2 := rfl
    have hrw : parsePrice "1 234,50 $" =
        ⟨(parsePrice "1 234,50 $").value, (parsePrice "1 234,50 $").currency,
         (parsePrice "1 234,50 $").text⟩ := rfl
    rw [hrw, hv]
    simp only [Price.mk.injEq]
    refine ⟨?_, rfl, rfl⟩
    rw [show digitsVal "1234".data = 1234 from rfl, show digitsVal "50".data = 50 from rfl]
    norm_num

/-! ## Claim C3: normalizeURL -/

/-- A non-empty string prepended to anything stays non-empty. -/
theorem strAppend_ne_empty (s t : String) (h : s ≠ "") : s ++ t ≠ "" := by
  intro he
  apply h
  have hd := congrArg String.data he
  simp only [String.data_append] at hd
  rcases List.append_eq_nil.mp hd with ⟨h1, _⟩
  cases s with
  | mk d => cases h1; rfl

/-- Claim C3 (amended): `normalizeURL` is idempotent and never returns an
empty result for non-empty input, and its branch structure is: return `href`
unchanged when it starts with the literal `"http"` (the code's
`strings.HasPrefix(href, "http")` check, which is a proxy for — not the same
as — "already has a scheme"); prefix `"https:"` when it starts with `"//"`;
prefix the base origin when it starts with `"/"`; return unchanged when
`url.Parse` yields an absolute URL; otherwise (parse failure or
still-relative result) join to the base origin with a `"/"` separator.
Idempotence and non-emptiness hold for every library predicate `parseAbs`,
hence for the real `url.Parse`. -/
theorem claim_C3_normalizeURL (parseAbs : String → Bool) (href : String) :
    normalizeURL parseAbs (normalizeURL parseAbs href) = normalizeURL parseAbs href ∧
    (href ≠ "" → normalizeURL parseAbs href ≠ "") ∧
    (strStarts href "http" = true → normalizeURL parseAbs href = href) ∧
    (strStarts href "http" = false → strStarts href "//" = true →
      normalizeURL parseAbs href = "https:" ++ href) ∧
    (strStarts href "http" = false → strStarts href "//" = false →
      strStarts href "/" = true → normalizeURL parseAbs href = baseURL ++ href) ∧
    (strStarts href "http" = false → strStarts href "//" = false →
      strStarts href "/" = false → parseAbs href = true → normalizeURL parseAbs href = href) ∧
    (strStarts href "http" = false → strStarts href "//" = false →
      strStarts href "/" = false → parseAbs href = false →
      normalizeURL parseAbs href = baseURL ++ "/" ++ href) := by
  have hs1 : ∀ x : String, strStarts ("https:" ++ x) "http" = true := fun _ => rfl
  have hs2 : ∀ x : String, strStarts (baseURL ++ x) "http" = true := fun _ => rfl
  have hs3 : ∀ x : String, strStarts (baseURL ++ "/" ++ x) "http" = true := fun _ => rfl
  refine ⟨?_, ?_, ?_, ?_, ?_, ?_, ?_⟩
  · by_cases h1 : strStarts href "http" = true
    · simp [normalizeURL, h1]
    · by_cases h2 : strStarts href "//" = true
      · simp [normalizeURL, h1, h2, hs1]
      · by_cases h3 : strStarts href "/" = true
        · simp [normalizeURL, h1, h2, h3, hs2]
        · by_cases h4 : parseAbs href = true
          · simp [normalizeURL, h1, h2, h3, h4]
          · simp [normalizeURL, h1, h2, h3, h4, hs3]
  · intro hne
    by_cases h1 : strStarts href "http" = true
    · simpa [normalizeURL, h1] using hne
    · by_cases h2 : strStarts href "//" = true
      · simp only [normalizeURL, h1, h2, if_false, if_true]
        exact strAppend_ne_empty "https:" href (by decide)
      · by_cases h3 : strStarts href "/" = true
        · simp only [normalizeURL, h1, h2, h3, if_false, if_true]
          exact strAppend_ne_empty baseURL href (by decide)
        · by_cases h4 : parseAbs href = true
          · simpa [normalizeURL, h1, h2, h3, h4] using hne
          · simp only [normalizeURL, h1, h2, h3, h4, if_false, if_true]
            exact strAppend_ne_empty (baseURL ++ "/") href (by decide)
  · intro h1; simp [normalizeURL, h1]
  · intro h1 h2; simp [normalizeURL, h1, h2]
  · intro h1 h2 h3; simp [normalizeURL, h1, h2, h3]
  · intro h1 h2 h3 h4; simp [normalizeURL, h1, h2, h3, h4]
  · intro h1 h2 h3 h4; simp [normalizeURL, h1, h2, h3, h4]

/-- Counterexample to claim C3 as stated: `"httpfoo"` has no scheme (so the
claimed algorithm joins it to the base origin), but the code returns it
unchanged because it starts with the literal `"http"`. -/
theorem claim_C3_counterexample :
    hasScheme "httpfoo" = false ∧
    urlParseIsAbs "httpfoo" = false ∧
    normalizeURLSpec urlParseIsAbs "httpfoo" = "https://www.avito.ru/httpfoo" ∧
    normalizeURL urlParseIsAbs "httpfoo" = "httpfoo" ∧
    normalizeURL urlParseIsAbs "httpfoo" ≠ normalizeURLSpec urlParseIsAbs "httpfoo" := by
  refine ⟨rfl, rfl, rfl, rfl, ?_⟩
  decide

/-- Witness for claim C3: the amended theorem applied at the concrete
protocol-relative input `"//img.avito.st/pic.png"`. -/
theorem claim_C3_witness :
    strStarts "//img.avito.st/pic.png" "http" = false ∧
    strStarts "//img.avito.st/pic.png" "//" = true ∧
    normalizeURL urlParseIsAbs "//img.avito.st/pic.png" = "https://img.avito.st/pic.png" := by
  refine ⟨by decide, by decide, ?_⟩
  have h := claim_C3_normalizeURL urlParseIsAbs "//img.avito.st/pic.png"
  exact (h.2.2.2.1 (by decide) (by decide)).trans (by decide)

/-! ## Claim C2: cleanText -/

/-- Characterization of the single-pass `fieldsAux` in terms of
takeWhile/dropWhile. -/
theorem fieldsAux_eq (l : List Char) : ∀ acc : List Char,
    fieldsAux l acc =
      if acc.isEmpty then fieldsL l
      else (acc.reverse ++ l.takeWhile (fun x => !isGoSpace x)) ::
        fieldsL (l.dropWhile (fun x => !isGoSpace x)) := by
  induction l with
  | nil =>
    intro acc
    cases acc <;> simp [fieldsAux, fieldsL]
  | cons c cs ih =>
    intro acc
    by_cases hsp : isGoSpace c = true
    · cases acc with
      | nil => simp only [List.isEmpty_nil, if_true]; rfl
      | cons a as =>
        simp only [fieldsAux, hsp, if_true, List.isEmpty_cons, if_false,
          List.takeWhile_cons, List.dropWhile_cons, Bool.not_eq_true']
        simp [hsp, fieldsL, fieldsAux]
    · cases acc with
      | nil =>
        simp only [List.isEmpty_nil, if_true]
        rfl
      | cons a as =>
        simp only [fieldsAux, hsp, if_false, List.isEmpty_cons,
          List.takeWhile_cons, List.dropWhile_cons]
        rw [ih (c :: a :: as)]
        simp [hsp]

theorem fieldsL_cons_space {c : Char} (cs : List Char) (h : isGoSpace c = true) :
    fieldsL (c :: cs) = fieldsL cs := by
  show fieldsAux (c :: cs) [] = fieldsL cs
  simp [fieldsAux, h, fieldsL]

theorem fieldsL_cons_nonspace {c : Char} (cs : List Char) (h : isGoSpace c = false) :
    fieldsL (c :: cs) =
      (c :: cs.takeWhile (fun x => !isGoSpace x)) ::
        fieldsL (cs.dropWhile (fun x => !isGoSpace x)) := by
  show fieldsAux (c :: cs) [] = _
  simp only [fieldsAux, h, if_false, Bool.false_eq_true]
  rw [fieldsAux_eq]
  simp

theorem fieldsAux_good (l : List Char) : ∀ acc : List Char,
    (∀ c ∈ acc, isGoSpace c = false) →
    ∀ f ∈ fieldsAux l acc, f ≠ [] ∧ ∀ c ∈ f, isGoSpace c = false := by
  induction l with
  | nil =>
    intro acc hacc f hf
    cases acc with
    | nil => simp [fieldsAux] at hf
    | cons a as =>
      simp only [fieldsAux, List.isEmpty_cons, Bool.false_eq_true, if_false,
        List.mem_singleton] at hf
      subst hf
      refine ⟨by simp, ?_⟩
      intro c hc
      exact hacc c (List.mem_reverse.mp hc)
  | cons c cs ih =>
    intro acc hacc f hf
    by_cases hsp : isGoSpace c = true
    · cases acc with
      | nil =>
        simp only [fieldsAux, hsp, if_true, List.isEmpty_nil] at hf
        exact ih [] (by simp) f hf
      | cons a as =>
        simp only [fieldsAux, hsp, if_true, List.isEmpty_cons, if_false] at hf
        rcases List.mem_cons.mp hf with rfl | hf
        · refine ⟨by simp, ?_⟩
          intro x hx
          exact hacc x (List.mem_reverse.mp hx)
        · exact ih [] (by simp) f hf
    · simp only [fieldsAux, hsp, if_false] at hf
      refine ih (c :: acc) ?_ f hf
      intro x hx
      rcases List.mem_cons.mp hx with rfl | hx
      · simpa using hsp
      · exact hacc x hx

theorem fieldsL_good (l : List Char) : goodFields (fieldsL l) :=
  fieldsAux_good l [] (by simp)

theorem intercalate_single (f : List Char) : List.intercalate [' '] [f] = f := by
  simp [List.intercalate]

theorem intercalate_cons2 (f g : List Char) (fs : List (List Char)) :
    List.intercalate [' '] (f :: g :: fs) =
      f ++ ' ' :: List.intercalate [' '] (g :: fs) := by
  simp [List.intercalate, List.intersperse]

theorem mem_intercalate_good {fs : List (List Char)} (hg : goodFields fs) :
    ∀ c ∈ List.intercalate [' '] fs, c = ' ' ∨ isGoSpace c = false := by
  induction fs with
  | nil => simp [List.intercalate]
  | cons f fs ih =>
    cases fs with
    | nil =>
      intro c hc
      rw [intercalate_single] at hc
      exact Or.inr ((hg f (by simp)).2 c hc)
    | cons g gs =>
      intro c hc
      rw [intercalate_cons2] at hc
      rcases List.mem_append.mp hc with hc | hc
      · exact Or.inr ((hg f (by simp)).2 c hc)
      · rcases List.mem_cons.mp hc with rfl | hc
        · exact Or.inl rfl
        · exact ih (fun f hf => hg f (List.mem_cons_of_mem _ hf)) c hc

theorem head_intercalate_good {fs : List (List Char)} (hg : goodFields fs) :
    ∀ c, (List.intercalate [' '] fs).head? = some c → isGoSpace c = false := by
  cases fs with
  | nil => simp [List.intercalate]
  | cons f fs =>
    intro c hc
    have hf := hg f (by simp)
    obtain ⟨a, as, rfl⟩ := List.exists_cons_of_ne_nil hf.1
    have : (List.intercalate [' '] ((a :: as) :: fs)).head? = some a := by
      cases fs with
      | nil => rw [intercalate_single]; rfl
      | cons g gs => rw [intercalate_cons2]; rfl
    rw [this] at hc
    cases hc
    exact hf.2 c (by simp)

theorem intercalate_good_ne_nil {fs : List (List Char)} (hg : goodFields fs)
    (hne : fs ≠ []) : List.intercalate [' '] fs ≠ [] := by
  cases fs with
  | nil => exact absurd rfl hne
  | cons f fs =>
    have hf := hg f (by simp)
    obtain ⟨a, as, rfl⟩ := List.exists_cons_of_ne_nil hf.1
    cases fs with
    | nil => rw [intercalate_single]; simp
    | cons g gs => rw [intercalate_cons2]; simp

theorem getLast_intercalate_good {fs : List (List Char)} (hg : goodFields fs) :
    ∀ c, (List.intercalate [' '] fs).getLast? = some c → isGoSpace c = false := by
  induction fs with
  | nil => simp [List.intercalate]
  | cons f fs ih =>
    cases fs with
    | nil =>
      intro c hc
      rw [intercalate_single] at hc
      exact (hg f (by simp)).2 c (List.mem_of_getLast?_eq_some hc)
    | cons g gs =>
      intro c hc
      rw [intercalate_cons2] at hc
      have hgs : goodFields (g :: gs) := fun f' hf' => hg f' (List.mem_cons_of_mem _ hf')
      have hne := intercalate_good_ne_nil hgs (by simp)
      obtain ⟨x, xs, hXe⟩ := List.exists_cons_of_ne_nil hne
      rw [List.getLast?_append_cons, hXe, List.getLast?_cons_cons] at hc
      exact ih hgs c (by rw [hXe]; exact hc)

theorem noDoubleSpace_iff {l : List Char} :
    noDoubleSpace l = true ↔
      List.Chain' (fun a b => (isGoSpace a && isGoSpace b) = false) l := by
  induction l with
  | nil => simp [noDoubleSpace]
  | cons a l ih =>
    cases l with
    | nil => simp [noDoubleSpace]
    | cons b t =>
      rw [List.chain'_cons]
      simp only [noDoubleSpace, Bool.and_eq_true, Bool.not_eq_true']
      constructor
      · rintro ⟨h1, h2⟩
        exact ⟨h1, ih.mp h2⟩
      · rintro ⟨h1, h2⟩
        exact ⟨h1, ih.mpr h2⟩

theorem chain'_of_spacefree {l : List Char} (h : ∀ c ∈ l, isGoSpace c = false) :
    List.Chain' (fun a b => (isGoSpace a && isGoSpace b) = false) l := by
  induction l with
  | nil => simp
  | cons a l ih =>
    rw [List.chain'_cons']
    refine ⟨?_, ih fun c hc => h c (List.mem_cons_of_mem _ hc)⟩
    intro y _
    simp [h a (by simp)]

theorem chain'_intercalate_good {fs : List (List Char)} (hg : goodFields fs) :
    List.Chain' (fun a b => (isGoSpace a && isGoSpace b) = false)
      (List.intercalate [' '] fs) := by
  induction fs with
  | nil => simp [List.intercalate]
  | cons f fs ih =>
    cases fs with
    | nil =>
      rw [intercalate_single]
      exact chain'_of_spacefree (hg f (by simp)).2
    | cons g gs =>
      rw [intercalate_cons2]
      have hgs : goodFields (g :: gs) := fun f' hf' => hg f' (List.mem_cons_of_mem _ hf')
      rw [List.chain'_append]
      refine ⟨chain'_of_spacefree (hg f (by simp)).2, ?_, ?_⟩
      · rw [List.chain'_cons']
        refine ⟨?_, ih hgs⟩
        intro y hy
        have := head_intercalate_good hgs y hy
        simp [this]
      · intro x hx y hy
        have := (hg f (by simp)).2 x (List.mem_of_getLast?_eq_some hx)
        simp [this]

theorem trimSpaceL_eq_self {l : List Char}
    (hh : ∀ c, l.head? = some c → isGoSpace c = false)
    (hl : ∀ c, l.getLast? = some c → isGoSpace c = false) :
    trimSpaceL l = l := by
  have h1 : l.dropWhile isGoSpace = l := by
    cases l with
    | nil => rfl
    | cons a t =>
      rw [List.dropWhile_cons]
      simp [hh a rfl]
  rw [trimSpaceL, h1]
  have h2 : l.reverse.dropWhile isGoSpace = l.reverse := by
    cases hr : l.reverse with
    | nil => rfl
    | cons a t =>
      rw [List.dropWhile_cons]
      have ha : l.getLast? = some a := by
        rw [← List.head?_reverse, hr]; rfl
      simp [hl a ha]
  rw [h2, List.reverse_reverse]

theorem fieldsL_of_single {f : List Char} (hne : f ≠ [])
    (hsf : ∀ c ∈ f, isGoSpace c = false) : fieldsL f = [f] := by
  obtain ⟨c, cs, rfl⟩ := List.exists_cons_of_ne_nil hne
  rw [fieldsL_cons_nonspace cs (hsf c (by simp))]
  have ht : cs.takeWhile (fun x => !isGoSpace x) = cs := by
    rw [List.takeWhile_eq_self_iff]
    intro a ha
    simp [hsf a (List.mem_cons_of_mem _ ha)]
  have hd : cs.dropWhile (fun x => !isGoSpace x) = [] := by
    rw [List.dropWhile_eq_nil_iff]
    intro a ha
    simp [hsf a (List.mem_cons_of_mem _ ha)]
  rw [ht, hd]
  rfl

theorem fieldsL_append_space {f : List Char} (r : List Char) (hne : f ≠ [])
    (hsf : ∀ c ∈ f, isGoSpace c = false) :
    fieldsL (f ++ ' ' :: r) = f :: fieldsL r := by
  obtain ⟨c, cs, rfl⟩ := List.exists_cons_of_ne_nil hne
  rw [List.cons_append, fieldsL_cons_nonspace _ (hsf c (by simp))]
  have hcs : ∀ a ∈ cs, (fun x => !isGoSpace x) a = true := by
    intro a ha
    simp [hsf a (List.mem_cons_of_mem _ ha)]
  rw [List.takeWhile_append_of_pos hcs, List.dropWhile_append_of_pos hcs]
  have ht : List.takeWhile (fun x => !isGoSpace x) (' ' :: r) = [] := by
    rw [List.takeWhile_cons]
    simp [isGoSpace]
  have hd : List.dropWhile (fun x => !isGoSpace x) (' ' :: r) = ' ' :: r := by
    rw [List.dropWhile_cons]
    simp [isGoSpace]
  rw [ht, hd, List.append_nil, fieldsL_cons_space _ (by simp [isGoSpace])]

theorem fieldsL_intercalate_good {fs : List (List Char)} (hg : goodFields fs) :
    fieldsL (List.intercalate [' '] fs) = fs := by
  induction fs with
  | nil => rfl
  | cons f fs ih =>
    cases fs with
    | nil =>
      rw [intercalate_single]
      exact fieldsL_of_single (hg f (by simp)).1 (hg f (by simp)).2
    | cons g gs =>
      rw [intercalate_cons2,
        fieldsL_append_space _ (hg f (by simp)).1 (hg f (by simp)).2,
        ih (fun f' hf' => hg f' (List.mem_cons_of_mem _ hf'))]

theorem cleanTextL_eq_intercalate (l : List Char) :
    cleanTextL l =
      List.intercalate [' '] (fieldsL (l.map (fun c => if c = '\n' then ' ' else c))) := by
  have hg : goodFields (fieldsL (l.map (fun c => if c = '\n' then ' ' else c))) :=
    fieldsL_good _
  rw [cleanTextL]
  exact trimSpaceL_eq_self (head_intercalate_good hg) (getLast_intercalate_good hg)

theorem cleanTextL_idem (l : List Char) : cleanTextL (cleanTextL l) = cleanTextL l := by
  have hg : goodFields (fieldsL (l.map (fun c => if c = '\n' then ' ' else c))) :=
    fieldsL_good _
  rw [cleanTextL_eq_intercalate l]
  have hmap :
      (List.intercalate [' ']
          (fieldsL (l.map (fun c => if c = '\n' then ' ' else c)))).map
        (fun c => if c = '\n' then ' ' else c) =
      List.intercalate [' '] (fieldsL (l.map (fun c => if c = '\n' then ' ' else c))) := by
    have := List.map_id
      (List.intercalate [' '] (fieldsL (l.map (fun c => if c = '\n' then ' ' else c))))
    refine Eq.trans (List.map_congr_left ?_) this
    intro c hc
    rcases mem_intercalate_good hg c hc with rfl | hns
    · rfl
    · have : c ≠ '\n' := by
        intro h
        rw [h] at hns
        simp [isGoSpace] at hns
      simp [this]
  rw [cleanTextL, hmap, fieldsL_intercalate_good hg]
  exact trimSpaceL_eq_self (head_intercalate_good hg) (getLast_intercalate_good hg)

/-- Claim C2: for every input string `x`, `cleanText x` contains no two
consecutive whitespace characters and no leading or trailing whitespace, and
`cleanText` is idempotent: `cleanText (cleanText x) = cleanText x`. -/
theorem claim_C2_cleanText (x : String) :
    noDoubleSpace (cleanText x).data = true ∧
    noSpaceEnds (cleanText x).data = true ∧
    cleanText (cleanText x) = cleanText x := by
  have hg : goodFields (fieldsL (x.data.map (fun c => if c = '\n' then ' ' else c))) :=
    fieldsL_good _
  have hdata : (cleanText x).data = cleanTextL x.data := rfl
  refine ⟨?_, ?_, ?_⟩
  · rw [hdata, cleanTextL_eq_intercalate]
    exact noDoubleSpace_iff.mpr (chain'_intercalate_good hg)
  · rw [hdata, cleanTextL_eq_intercalate]
    simp only [noSpaceEnds, Bool.and_eq_true]
    constructor
    · split
      · next c hc => simp [head_intercalate_good hg c hc]
      · rfl
    · split
      · next c hc => simp [getLast_intercalate_good hg c hc]
      · rfl
  · show (⟨cleanTextL (cleanTextL x.data)⟩ : String) = ⟨cleanTextL x.data⟩
    exact congrArg String.mk (cleanTextL_idem x.data)

/-! ## Claim C4: parseDate -/

/-- A non-empty whitespace-free pattern survives a front `dropWhile` of
whitespace. -/
theorem infix_dropWhile {pat l : List Char} (hne : pat ≠ [])
    (hsf : ∀ c ∈ pat, isGoSpace c = false) (h : pat <:+: l) :
    pat <:+: l.dropWhile isGoSpace := by
  induction l with
  | nil =>
    rw [List.infix_nil] at h
    exact absurd h hne
  | cons c cs ih =>
    rw [List.dropWhile_cons]
    by_cases hc : isGoSpace c = true
    · rw [if_pos hc]
      rcases List.infix_cons_iff.mp h with hp | hi
      · obtain ⟨a, as, rfl⟩ := List.exists_cons_of_ne_nil hne
        have := (List.cons_prefix_cons.mp hp).1
        subst this
        have := hsf a (by simp)
        rw [this] at hc
        cases hc
      · exact ih hi
    · rw [if_neg hc]
      exact h

/-- A non-empty whitespace-free pattern survives `strings.TrimSpace`. -/
theorem infix_trimSpaceL {pat l : List Char} (hne : pat ≠ [])
    (hsf : ∀ c ∈ pat, isGoSpace c = false) (h : pat <:+: l) :
    pat <:+: trimSpaceL l := by
  rw [trimSpaceL]
  have h1 : pat <:+: l.dropWhile isGoSpace := infix_dropWhile hne hsf h
  have h2 : pat.reverse <:+: (l.dropWhile isGoSpace).reverse :=
    List.reverse_infix.mpr h1
  have h3 : pat.reverse <:+: ((l.dropWhile isGoSpace).reverse).dropWhile isGoSpace := by
    refine infix_dropWhile ?_ ?_ h2
    · simpa using hne
    · intro c hc
      exact hsf c (List.mem_reverse.mp hc)
  have h4 := List.reverse_infix.mpr h3
  simpa using h4

/-- A lowercase pattern contained in the raw input is still contained after
`parseDate`'s trim-and-lowercase preprocessing. -/
theorem infix_lowTrim {pat : List Char} {s : String} (hne : pat ≠ [])
    (hsf : ∀ c ∈ pat, isGoSpace c = false)
    (hfix : pat.map charToLower = pat) (h : pat <:+: s.data) :
    hasSub pat (lowTrim s) = true := by
  rw [hasSub_iff, lowTrim, ← hfix]
  exact (infix_trimSpaceL hne hsf h).map charToLower

/-- On a valid clock, `time.Date(now.Year(), now.Month(), now.Day(), 0 …)`
is midnight of the same calendar day. -/
theorem goTimeDate_today {t : DateTime} (hv : validDate t = true) :
    goTimeDate t.year t.month t.day = midnightOf t := by
  simp only [validDate, Bool.and_eq_true, decide_eq_true_eq] at hv
  rw [goTimeDate, midnightOf]
  rw [if_neg (by omega), if_neg (by omega)]

/-- On a valid clock, `time.Date(now.Year(), now.Month(), now.Day()-1, 0 …)`
is midnight of the previous calendar day (including month and year
borrows). -/
theorem goTimeDate_yesterday {t : DateTime} (hv : validDate t = true) :
    goTimeDate t.year t.month (t.day - 1) = midnightOf (prevCalendarDay t) := by
  simp only [validDate, Bool.and_eq_true, decide_eq_true_eq] at hv
  obtain ⟨⟨⟨hm1, hm2⟩, hd1⟩, hd2⟩ := hv
  by_cases hd : t.day > 1
  · have hR : midnightOf (prevCalendarDay t) = ⟨t.year, t.month, t.day - 1, 0, 0, 0⟩ := by
      rw [prevCalendarDay, if_pos hd]
      rfl
    have hL : goTimeDate t.year t.month (t.day - 1) = ⟨t.year, t.month, t.day - 1, 0, 0, 0⟩ := by
      rw [goTimeDate, if_neg (by omega), if_neg (by omega)]
    rw [hL, hR]
  · by_cases hm : t.month = 1
    · have hR : midnightOf (prevCalendarDay t) = ⟨t.year - 1, 12, 31, 0, 0, 0⟩ := by
        rw [prevCalendarDay, if_neg hd, if_neg (by omega)]
        rfl
      have hL : goTimeDate t.year t.month (t.day - 1) = ⟨t.year - 1, 12, 31, 0, 0, 0⟩ := by
        rw [goTimeDate, if_pos (by omega), if_pos hm]
        simp only [DateTime.mk.injEq, true_and, and_true]
        omega
      rw [hL, hR]
    · have hR : midnightOf (prevCalendarDay t) =
          ⟨t.year, t.month - 1, daysInMonth t.year (t.month - 1), 0, 0, 0⟩ := by
        rw [prevCalendarDay, if_neg hd, if_pos (by omega)]
        rfl
      have hL : goTimeDate t.year t.month (t.day - 1) =
          ⟨t.year, t.month - 1, daysInMonth t.year (t.month - 1), 0, 0, 0⟩ := by
        rw [goTimeDate, if_pos (by omega), if_neg hm]
        simp only [DateTime.mk.injEq, true_and, and_true]
        omega
      rw [hL, hR]

/-- When every layout fails, the format cascade returns `now`. -/
theorem tryFormats_none (now : DateTime) (ds : List Char) (fmts : List (List FmtItem))
    (h : ∀ f ∈ fmts, goTimeParse f ds = none) : tryFormats now ds fmts = now := by
  induction fmts with
  | nil => rfl
  | cons f fs ih =>
    rw [tryFormats, h f (by simp)]
    exact ih fun f' hf' => h f' (List.mem_cons_of_mem _ hf')

/-- Claim C4 (amended): at process time `now` (any valid clock), an input
containing "сегодня" parses to midnight of `now`'s calendar day; an input
containing "вчера" — provided its lowercased, trimmed form does not also
contain "сегодня", which takes precedence in the code — parses to midnight
of the previous calendar day; and when neither relative token matches and
every absolute date format in the ordered list fails, `parseDate` returns
the current timestamp (the "unknown → now" fallback), never an error. -/
theorem claim_C4_parseDate (raw : String) (now : DateTime) (hnow : validDate now = true) :
    ("сегодня".data <:+: raw.data → parseDate raw now = midnightOf now) ∧
    ("вчера".data <:+: raw.data → hasSub "сегодня".data (lowTrim raw) = false →
      parseDate raw now = midnightOf (prevCalendarDay now)) ∧
    (hasSub "сегодня".data (lowTrim raw) = false →
      hasSub "вчера".data (lowTrim raw) = false →
      (∀ f ∈ avitoFormats, goTimeParse f (lowTrim raw) = none) →
      parseDate raw now = now) := by
  refine ⟨?_, ?_, ?_⟩
  · intro h
    have hsub : hasSub "сегодня".data (lowTrim raw) = true :=
      infix_lowTrim (by decide) (by decide) (by decide) h
    simp only [parseDate, hsub, if_true]
    exact goTimeDate_today hnow
  · intro h hnotoday
    have hsub : hasSub "вчера".data (lowTrim raw) = true :=
      infix_lowTrim (by decide) (by decide) (by decide) h
    simp only [parseDate, hnotoday, hsub, if_true, Bool.false_eq_true, if_false]
    exact goTimeDate_yesterday hnow
  · intro h1 h2 h3
    simp only [parseDate, h1, h2, Bool.false_eq_true, if_false]
    exact tryFormats_none now _ _ h3

/-- Counterexample to claim C4 as stated: the input "сегодня, вчера"
contains the token "вчера", yet `parseDate` returns midnight of the current
day (the "сегодня" branch wins), not midnight of the previous day. -/
theorem claim_C4_counterexample :
    hasSub "вчера".data ("сегодня, вчера" : String).data = true ∧
    parseDate "сегодня, вчера" ⟨2024, 5, 15, 12, 30, 0⟩ = ⟨2024, 5, 15, 0, 0, 0⟩ ∧
    midnightOf (prevCalendarDay ⟨2024, 5, 15, 12, 30, 0⟩) = ⟨2024, 5, 14, 0, 0, 0⟩ ∧
    (⟨2024, 5, 15, 0, 0, 0⟩ : DateTime) ≠ ⟨2024, 5, 14, 0, 0, 0⟩ :=
  ⟨by decide, by decide, by decide, by decide⟩

/-- Witness for claim C4: the amended theorem applied at the concrete input
"вчера, 11:20" on 2024-03-01, which exercises the month borrow into the
leap-year February 29. -/
theorem claim_C4_witness :
    validDate ⟨2024, 3, 1, 10, 0, 0⟩ = true ∧
    parseDate "вчера, 11:20" ⟨2024, 3, 1, 10, 0, 0⟩ = ⟨2024, 2, 29, 0, 0, 0⟩ :=
  ⟨by decide, by
    have h := claim_C4_parseDate "вчера, 11:20" ⟨2024, 3, 1, 10, 0, 0⟩ (by decide)
    have h2 := h.2.1 (by decide) (by decide)
    rw [h2]; decide⟩

/-! ## Claims C5 and C6: GetListingDetails -/

/-- The wrapped visit error can never collide with the missing-URL error
(their lengths differ). -/
theorem errVisit_ne (e : String) : errVisit e ≠ errMissingURL := by
  intro h
  have hlen : (errVisit e).data.length = errMissingURL.data.length := by rw [h]
  rw [errVisit, String.data_append, List.length_append] at hlen
  have h1 : ("error visiting listing page: " : String).data.length = 29 := by decide
  have h2 : errMissingURL.data.length = 20 := by decide
  omega

/-- Claim C5 (amended): enrichment protects exactly two fields — a non-empty
`Title` and a `Price` with non-zero `Value` are never overwritten; but,
contrary to the claim as stated, the other fields are not guarded:
`Description` and `Location` are assigned unconditionally from the detail
page (even when the page yields the empty string), `PublishedAt` is
overwritten whenever the page yields non-empty date text, and `Attributes`
is replaced whenever at least one attribute parses; `ImageURLs` is appended
to. `ID` and `URL` are untouched and a successful enrichment returns a nil
error. -/
theorem claim_C5_enrichment (l : Listing) (pg : DetailPage) (now : DateTime)
    (hurl : l.url ≠ "") (hfetch : pg.fetchErr = none) :
    (l.title ≠ "" → ((GetListingDetails l pg now).1).title = l.title) ∧
    (l.price.value ≠ 0 → ((GetListingDetails l pg now).1).price = l.price) ∧
    ((GetListingDetails l pg now).1).imageURLs =
      l.imageURLs ++ pg.galleryImgs.filterMap imgURLOf ∧
    ((GetListingDetails l pg now).1).description = trimS pg.description ∧
    ((GetListingDetails l pg now).1).location = trimS pg.location ∧
    (pg.dateText = "" → ((GetListingDetails l pg now).1).publishedAt = l.publishedAt) ∧
    (paramAttrs pg.paramTexts = [] →
      ((GetListingDetails l pg now).1).attributes = l.attributes) ∧
    ((GetListingDetails l pg now).1).url = l.url ∧
    ((GetListingDetails l pg now).1).id = l.id ∧
    (GetListingDetails l pg now).2 = none := by
  refine ⟨?_, ?_, ?_, ?_, ?_, ?_, ?_, ?_, ?_, ?_⟩
  · intro h; simp [GetListingDetails, if_neg hurl, hfetch, h]
  · intro h; simp [GetListingDetails, if_neg hurl, hfetch, h]
  · simp [GetListingDetails, if_neg hurl, hfetch]
  · simp [GetListingDetails, if_neg hurl, hfetch]
  · simp [GetListingDetails, if_neg hurl, hfetch]
  · intro h; simp [GetListingDetails, if_neg hurl, hfetch, h]
  · intro h; simp [GetListingDetails, if_neg hurl, hfetch, h]
  · simp [GetListingDetails, if_neg hurl, hfetch]
  · simp [GetListingDetails, if_neg hurl, hfetch]
  · simp [GetListingDetails, if_neg hurl, hfetch]

/-- Counterexample to claim C5 as stated: a listing whose `Description` is
already set to the non-empty "Хороший шкаф" is enriched against a detail
page whose description selector yields nothing, and the non-empty
description is overwritten with the empty string. -/
theorem claim_C5_counterexample :
    (GetListingDetails
      ⟨"100", "Шкаф", "Хороший шкаф", ⟨500, "RUB", "500 ₽"⟩,
        "https://www.avito.ru/item/100", [], "Москва", "", "",
        ⟨2024, 1, 10, 0, 0, 0⟩, []⟩
      ⟨none, [], "", [], "", "", "", []⟩ ⟨2024, 5, 15, 12, 0, 0⟩).1.description = "" ∧
    ("Хороший шкаф" : String) ≠ "" :=
  ⟨by decide, by decide⟩

/-- Claim C6: for every listing with an empty URL, `GetListingDetails`
returns the input listing unchanged together with the missing-URL error
value (never a crash: the embedding is a total function); for a non-empty
URL that error is never produced. -/
theorem claim_C6_missingURL (l : Listing) (pg : DetailPage) (now : DateTime) :
    (l.url = "" → GetListingDetails l pg now = (l, some errMissingURL)) ∧
    (l.url ≠ "" → (GetListingDetails l pg now).2 ≠ some errMissingURL) := by
  constructor
  · intro h
    simp [GetListingDetails, h]
  · intro h
    cases hfe : pg.fetchErr with
    | none =>
      simp [GetListingDetails, if_neg h, hfe]
    | some e =>
      simp only [GetListingDetails, if_neg h, hfe]
      intro hcon
      exact errVisit_ne e (by injection hcon)

/-- Witness for claim C6: the theorem applied at the zero listing (empty
URL) and at a listing with a concrete URL. -/
theorem claim_C6_witness :
    GetListingDetails zeroListing ⟨none, [], "", [], "", "", "", []⟩ zeroTime =
      (zeroListing, some errMissingURL) ∧
    ("https://www.avito.ru/item/1" : String) ≠ "" ∧
    (GetListingDetails { zeroListing with url := "https://www.avito.ru/item/1" }
      ⟨none, [], "", [], "", "", "", []⟩ zeroTime).2 ≠ some errMissingURL :=
  ⟨(claim_C6_missingURL zeroListing ⟨none, [], "", [], "", "", "", []⟩ zeroTime).1 rfl,
   by decide,
   (claim_C6_missingURL { zeroListing with url := "https://www.avito.ru/item/1" }
      ⟨none, [], "", [], "", "", "", []⟩ zeroTime).2 (by decide)⟩

/-- Witness for claim C5: the amended theorem applied at a listing with
non-empty title "Велосипед" and price 500, enriched against a page offering
a different `h1` and price text; both protected fields survive. -/
theorem claim_C5_witness :
    ("Велосипед" : String) ≠ "" ∧
    (⟨500, "RUB", "500 ₽"⟩ : Price).value ≠ 0 ∧
    ((GetListingDetails
        ⟨"7", "Велосипед", "", ⟨500, "RUB", "500 ₽"⟩, "https://www.avito.ru/item/7",
          [], "", "", "", zeroTime, []⟩
        ⟨none, ["Другой заголовок"], "Описание", [], "", "999 ₽", "", []⟩
        zeroTime).1).title = "Велосипед" ∧
    ((GetListingDetails
        ⟨"7", "Велосипед", "", ⟨500, "RUB", "500 ₽"⟩, "https://www.avito.ru/item/7",
          [], "", "", "", zeroTime, []⟩
        ⟨none, ["Другой заголовок"], "Описание", [], "", "999 ₽", "", []⟩
        zeroTime).1).price = ⟨500, "RUB", "500 ₽"⟩ := by
  have h := claim_C5_enrichment
    ⟨"7", "Велосипед", "", ⟨500, "RUB", "500 ₽"⟩, "https://www.avito.ru/item/7",
      [], "", "", "", zeroTime, []⟩
    ⟨none, ["Другой заголовок"], "Описание", [], "", "999 ₽", "", []⟩
    zeroTime (by decide) rfl
  exact ⟨by decide, by norm_num, h.1 (by decide), h.2.1 (by norm_num)⟩

/-! ## Claim C7: live GetCategories merge -/

/-- Writing key `k` into the map leaves lookups of other keys unchanged
(mapped-update branch). -/
theorem find?_map_put_ne {k k' : String} {v : Category} (h : k' ≠ k) (m : CatMap) :
    List.find? (fun e => e.1 == k')
        (m.map (fun e => if e.1 == k then (k, v) else e)) =
      List.find? (fun e => e.1 == k') m := by
  induction m with
  | nil => rfl
  | cons e m ih =>
    by_cases he : e.1 = k
    · rw [List.map_cons, if_pos (by simp [he])]
      rw [List.find?_cons, List.find?_cons]
      have h1 : ((k, v).1 == k') = false := by simp [Ne.symm h]
      have h2 : (e.1 == k') = false := by simp [he, Ne.symm h]
      rw [h1, h2]
      exact ih
    · rw [List.map_cons, if_neg (by simp [he])]
      rw [List.find?_cons, List.find?_cons]
      cases hp : (e.1 == k') with
      | true => rfl
      | false => exact ih

/-- Writing key `k` into a map that contains it makes the lookup of `k`
find the new entry. -/
theorem find?_map_put_self {k : String} {v : Category} (m : CatMap) (e₀ : String × Category)
    (hf : List.find? (fun e => e.1 == k) m = some e₀) :
    List.find? (fun e => e.1 == k)
        (m.map (fun e => if e.1 == k then (k, v) else e)) = some (k, v) := by
  induction m with
  | nil => cases hf
  | cons e m ih =>
    by_cases he : e.1 = k
    · rw [List.map_cons, if_pos (by simp [he]), List.find?_cons]
      simp
    · rw [List.find?_cons] at hf
      rw [List.map_cons, if_neg (by simp [he]), List.find?_cons]
      have h2 : (e.1 == k) = false := by simp [he]
      rw [h2] at hf ⊢
      exact ih hf

/-- Go map semantics: a write is visible to a read of the same key. -/
theorem mapGet_mapPut_self (m : CatMap) (k : String) (v : Category) :
    mapGet (mapPut m k v) k = some v := by
  rw [mapPut]
  cases hf : List.find? (fun e => e.1 == k) m with
  | none =>
    rw [mapGet, List.find?_append, hf]
    simp
  | some e₀ =>
    rw [mapGet, find?_map_put_self m e₀ hf]

/-- Go map semantics: a write does not affect reads of other keys. -/
theorem mapGet_mapPut_ne {m : CatMap} {k k' : String} {v : Category} (h : k' ≠ k) :
    mapGet (mapPut m k v) k' = mapGet m k' := by
  rw [mapPut]
  cases hf : List.find? (fun e => e.1 == k) m with
  | none =>
    rw [mapGet, List.find?_append]
    have : List.find? (fun e => e.1 == k') [(k, v)] = none := by
      simp [Ne.symm h]
    rw [this]
    simp [mapGet]
  | some e₀ =>
    rw [mapGet, find?_map_put_ne h m, mapGet]

/-- The key list after a write: unchanged when the key existed, the key
appended otherwise. -/
theorem keys_mapPut (m : CatMap) (k : String) (v : Category) :
    (mapPut m k v).map Prod.fst =
      (if (List.find? (fun e => e.1 == k) m).isSome then m.map Prod.fst
       else m.map Prod.fst ++ [k]) := by
  rw [mapPut]
  cases hf : List.find? (fun e => e.1 == k) m with
  | none =>
    simp
  | some e₀ =>
    simp only [Option.isSome_some, if_true, List.map_map]
    refine List.map_congr_left ?_
    intro e _
    by_cases he : e.1 = k
    · simp [he]
    · simp [he]

/-- A write preserves key uniqueness. -/
theorem nodup_keys_mapPut {m : CatMap} (k : String) (v : Category)
    (h : (m.map Prod.fst).Nodup) : ((mapPut m k v).map Prod.fst).Nodup := by
  rw [keys_mapPut]
  cases hf : List.find? (fun e => e.1 == k) m with
  | some e₀ => simpa using h
  | none =>
    simp only [Option.isSome_none, Bool.false_eq_true, if_false]
    rw [List.nodup_append]
    refine ⟨h, List.nodup_singleton k, ?_⟩
    intro x hx
    simp only [List.mem_singleton]
    intro hxk
    subst hxk
    obtain ⟨e, he, rfl⟩ := List.mem_map.mp hx
    have := List.find?_eq_none.mp hf e he
    simp at this

/-- A write of a non-empty-named category preserves the all-names-non-empty
invariant. -/
theorem namesOK_mapPut {m : CatMap} {k : String} {v : Category}
    (h : ∀ e ∈ m, e.2.name ≠ "") (hv : v.name ≠ "") :
    ∀ e ∈ mapPut m k v, e.2.name ≠ "" := by
  rw [mapPut]
  cases hf : List.find? (fun e => e.1 == k) m with
  | none =>
    intro e he
    rcases List.mem_append.mp he with he | he
    · exact h e he
    · rcases List.mem_singleton.mp he with rfl
      exact hv
  | some e₀ =>
    intro e he
    obtain ⟨e', he', rfl⟩ := List.mem_map.mp he
    by_cases h1 : e'.1 = k
    · simpa [h1] using hv
    · simpa [h1] using h e' he'

/-- Both map invariants at once, for a write of a non-empty-named value. -/
theorem mapPut_inv {m : CatMap} (k : String) {v : Category}
    (h1 : (m.map Prod.fst).Nodup) (h2 : ∀ e ∈ m, e.2.name ≠ "") (hv : v.name ≠ "") :
    ((mapPut m k v).map Prod.fst).Nodup ∧ ∀ e ∈ mapPut m k v, e.2.name ≠ "" :=
  ⟨nodup_keys_mapPut k v h1, namesOK_mapPut h2 hv⟩

/-- The visual-grid rule preserves key uniqueness and non-empty names. -/
theorem ruleVisualGrid_inv {m : CatMap}
    (h : (m.map Prod.fst).Nodup ∧ ∀ e ∈ m, e.2.name ≠ "") (ev : String × String) :
    ((ruleVisualGrid m ev).map Prod.fst).Nodup ∧
      ∀ e ∈ ruleVisualGrid m ev, e.2.name ≠ "" := by
  simp only [ruleVisualGrid]
  split
  · next hg =>
    have hn : cleanText ev.1 ≠ "" := by
      simp only [Bool.and_eq_true, decide_eq_true_eq] at hg
      exact hg.2
    split
    · next c hc =>
      split
      · exact mapPut_inv _ h.1 h.2 hn
      · exact h
    · exact mapPut_inv _ h.1 h.2 hn
  · exact h

/-- The dropdown rule preserves key uniqueness and non-empty names (it
overwrites, but always with a non-empty name). -/
theorem ruleDropdown_inv {m : CatMap}
    (h : (m.map Prod.fst).Nodup ∧ ∀ e ∈ m, e.2.name ≠ "") (ev : String × String) :
    ((ruleDropdown m ev).map Prod.fst).Nodup ∧
      ∀ e ∈ ruleDropdown m ev, e.2.name ≠ "" := by
  simp only [ruleDropdown]
  split
  · next hg =>
    have hn : cleanText ev.1 ≠ "" := by
      simp only [Bool.and_eq_true, decide_eq_true_eq] at hg
      exact hg.2
    exact mapPut_inv _ h.1 h.2 hn
  · exact h

/-- The mini-menu rule preserves key uniqueness and non-empty names. -/
theorem ruleMiniMenu_inv {m : CatMap}
    (h : (m.map Prod.fst).Nodup ∧ ∀ e ∈ m, e.2.name ≠ "") (ev : String × String) :
    ((ruleMiniMenu m ev).map Prod.fst).Nodup ∧
      ∀ e ∈ ruleMiniMenu m ev, e.2.name ≠ "" := by
  simp only [ruleMiniMenu]
  split
  · next hg =>
    have hn : cleanText ev.1 ≠ "" := by
      simp only [Bool.and_eq_true, decide_eq_true_eq] at hg
      exact hg.2
    split
    · exact h
    · exact mapPut_inv _ h.1 h.2 hn
  · exact h

/-- The top-navigation rule preserves key uniqueness and non-empty names. -/
theorem ruleTopNav_inv {m : CatMap}
    (h : (m.map Prod.fst).Nodup ∧ ∀ e ∈ m, e.2.name ≠ "") (ev : String × String) :
    ((ruleTopNav m ev).map Prod.fst).Nodup ∧
      ∀ e ∈ ruleTopNav m ev, e.2.name ≠ "" := by
  simp only [ruleTopNav]
  split
  · next hg =>
    have hn : cleanText ev.1 ≠ "" := by
      simp only [Bool.and_eq_true, decide_eq_true_eq] at hg
      exact hg.2
    split
    · exact h
    · exact mapPut_inv _ h.1 h.2 hn
  · exact h

/-- The service-tile rule preserves key uniqueness and non-empty names. -/
theorem ruleService_inv {m : CatMap}
    (h : (m.map Prod.fst).Nodup ∧ ∀ e ∈ m, e.2.name ≠ "") (ev : Option String × String) :
    ((ruleService m ev).map Prod.fst).Nodup ∧
      ∀ e ∈ ruleService m ev, e.2.name ≠ "" := by
  simp only [ruleService]
  split
  · next href heq =>
    split
    · next hg =>
      have hn : cleanText ev.2 ≠ "" := by
        simp only [Bool.and_eq_true, decide_eq_true_eq] at hg
        exact hg.2
      split
      · exact h
      · exact mapPut_inv _ h.1 h.2 hn
    · exact h
  · exact h

/-- The visual-grid rule never overwrites an entry whose name is already
populated. -/
theorem ruleVisualGrid_keeps {m : CatMap} {u : String} {c : Category}
    (hc : mapGet m u = some c) (hn : c.name ≠ "") (ev : String × String) :
    mapGet (ruleVisualGrid m ev) u = some c := by
  simp only [ruleVisualGrid]
  split
  · split
    · next c' hc' =>
      by_cases hu : normalizeURLGo ev.2 = u
      · rw [hu] at hc'
        rw [hc] at hc'
        cases hc'
        rw [if_neg hn]
        exact hc
      · split
        · rw [mapGet_mapPut_ne (Ne.symm hu)]
          exact hc
        · exact hc
    · next hc' =>
      by_cases hu : normalizeURLGo ev.2 = u
      · rw [hu, hc] at hc'
        cases hc'
      · rw [mapGet_mapPut_ne (Ne.symm hu)]
        exact hc
  · exact hc

/-- The mini-menu rule never overwrites an existing entry. -/
theorem ruleMiniMenu_keeps {m : CatMap} {u : String} {c : Category}
    (hc : mapGet m u = some c) (_hn : c.name ≠ "") (ev : String × String) :
    mapGet (ruleMiniMenu m ev) u = some c := by
  simp only [ruleMiniMenu]
  split
  · split
    · exact hc
    · next hc' =>
      by_cases hu : normalizeURLGo ev.2 = u
      · rw [hu, hc] at hc'
        cases hc'
      · rw [mapGet_mapPut_ne (Ne.symm hu)]
        exact hc
  · exact hc

/-- The top-navigation rule never overwrites an existing entry. -/
theorem ruleTopNav_keeps {m : CatMap} {u : String} {c : Category}
    (hc : mapGet m u = some c) (_hn : c.name ≠ "") (ev : String × String) :
    mapGet (ruleTopNav m ev) u = some c := by
  simp only [ruleTopNav]
  split
  · split
    · exact hc
    · next hc' =>
      by_cases hu : normalizeURLGo ev.2 = u
      · rw [hu, hc] at hc'
        cases hc'
      · rw [mapGet_mapPut_ne (Ne.symm hu)]
        exact hc
  · exact hc

/-- The service-tile rule never overwrites an existing entry. -/
theorem ruleService_keeps {m : CatMap} {u : String} {c : Category}
    (hc : mapGet m u = some c) (_hn : c.name ≠ "") (ev : Option String × String) :
    mapGet (ruleService m ev) u = some c := by
  simp only [ruleService]
  split
  · next href hhref =>
    split
    · split
      · exact hc
      · next hc' =>
        by_cases hu : normalizeURLGo href = u
        · rw [hu, hc] at hc'
          cases hc'
        · rw [mapGet_mapPut_ne (Ne.symm hu)]
          exact hc
    · exact hc
  · exact hc

/-- A property preserved by a rule is preserved by folding its events. -/
theorem foldl_pres {β : Type} (P : CatMap → Prop) (rule : CatMap → β → CatMap)
    (hrule : ∀ m ev, P m → P (rule m ev)) :
    ∀ (evs : List β) (m : CatMap), P m → P (List.foldl rule m evs) := by
  intro evs
  induction evs with
  | nil => intro m h; exact h
  | cons ev evs ih =>
    intro m h
    exact ih (rule m ev) (hrule m ev h)

/-- Entry preservation lifts from one rule application to its whole fold. -/
theorem foldl_keeps {β : Type} (rule : CatMap → β → CatMap)
    (hrule : ∀ (m : CatMap) (ev : β) (u : String) (c : Category),
      mapGet m u = some c → c.name ≠ "" → mapGet (rule m ev) u = some c)
    {u : String} {c : Category} :
    ∀ (evs : List β) (m : CatMap), mapGet m u = some c → c.name ≠ "" →
      mapGet (List.foldl rule m evs) u = some c := by
  intro evs
  induction evs with
  | nil => intro m h _
           exact h
  | cons ev evs ih =>
    intro m h hn
    exact ih (rule m ev) (hrule m ev u c h hn) hn

/-- Claim C7 (amended): the merge keyed by canonical URL keeps keys unique
(duplicate URLs always collapse into exactly one `Category`) and every
stored name non-empty (each rule requires a non-empty cleaned name, so the
claim's `(name="", url=U)` discovery is never stored, and the spec's example
— `("", U)` then `("Cars", U)` — indeed yields exactly one Category named
"Cars"); the visual-grid, mini-menu, top-navigation and service rules never
overwrite a populated name; but, contrary to the claim as stated, the
dropdown rule stores unconditionally and can replace a name populated by an
earlier rule. -/
theorem claim_C7_categoryMerge (e1 e2 e3 e4 : List (String × String))
    (e5 : List (Option String × String)) :
    ((GetCategoriesLive e1 e2 e3 e4 e5).map Prod.fst).Nodup ∧
    (∀ e ∈ GetCategoriesLive e1 e2 e3 e4 e5, e.2.name ≠ "") ∧
    (∀ (m : CatMap) (ev : String × String) (u : String) (c : Category),
      mapGet m u = some c → c.name ≠ "" →
      mapGet (ruleVisualGrid m ev) u = some c ∧
      mapGet (ruleMiniMenu m ev) u = some c ∧
      mapGet (ruleTopNav m ev) u = some c) ∧
    (∀ (m : CatMap) (ev : Option String × String) (u : String) (c : Category),
      mapGet m u = some c → c.name ≠ "" → mapGet (ruleService m ev) u = some c) ∧
    GetCategoriesLive [("", "/cars")] [("Cars", "/cars")] [] [] [] =
      [("https://www.avito.ru/cars", mkCat "Cars" "https://www.avito.ru/cars")] := by
  have hinv : ((GetCategoriesLive e1 e2 e3 e4 e5).map Prod.fst).Nodup ∧
      ∀ e ∈ GetCategoriesLive e1 e2 e3 e4 e5, e.2.name ≠ "" := by
    rw [GetCategoriesLive]
    refine foldl_pres (fun m => (m.map Prod.fst).Nodup ∧ ∀ e ∈ m, e.2.name ≠ "")
      ruleService (fun m ev h => ruleService_inv h ev) e5 _ ?_
    refine foldl_pres (fun m => (m.map Prod.fst).Nodup ∧ ∀ e ∈ m, e.2.name ≠ "")
      ruleTopNav (fun m ev h => ruleTopNav_inv h ev) e4 _ ?_
    refine foldl_pres (fun m => (m.map Prod.fst).Nodup ∧ ∀ e ∈ m, e.2.name ≠ "")
      ruleMiniMenu (fun m ev h => ruleMiniMenu_inv h ev) e3 _ ?_
    refine foldl_pres (fun m => (m.map Prod.fst).Nodup ∧ ∀ e ∈ m, e.2.name ≠ "")
      ruleDropdown (fun m ev h => ruleDropdown_inv h ev) e2 _ ?_
    refine foldl_pres (fun m => (m.map Prod.fst).Nodup ∧ ∀ e ∈ m, e.2.name ≠ "")
      ruleVisualGrid (fun m ev h => ruleVisualGrid_inv h ev) e1 _ ?_
    exact ⟨List.nodup_nil, by simp⟩
  refine ⟨hinv.1, hinv.2, ?_, ?_, rfl⟩
  · intro m ev u c hc hn
    exact ⟨ruleVisualGrid_keeps hc hn ev, ruleMiniMenu_keeps hc hn ev,
      ruleTopNav_keeps hc hn ev⟩
  · intro m ev u c hc hn
    exact ruleService_keeps hc hn ev

/-- Counterexample to claim C7 as stated: the visual-grid rule stores the
populated name "Автомобили" for the canonical URL of `/cars`, and the later
dropdown-rule discovery `("Другое", "/cars")` overwrites it. -/
theorem claim_C7_counterexample :
    mapGet (List.foldl ruleVisualGrid [] [("Автомобили", "/cars")])
        "https://www.avito.ru/cars" =
      some (mkCat "Автомобили" "https://www.avito.ru/cars") ∧
    (mkCat "Автомобили" "https://www.avito.ru/cars").name ≠ "" ∧
    mapGet (GetCategoriesLive [("Автомобили", "/cars")] [("Другое", "/cars")] [] [] [])
        "https://www.avito.ru/cars" =
      some (mkCat "Другое" "https://www.avito.ru/cars") ∧
    mkCat "Другое" "https://www.avito.ru/cars" ≠
      mkCat "Автомобили" "https://www.avito.ru/cars" := by
  refine ⟨rfl, by decide, rfl, ?_⟩
  intro h
  have := congrArg Category.name h
  simp only [mkCat, Category.name] at this
  exact absurd this (by decide)

/-- Witness for claim C7: the amended theorem's no-overwrite part applied at
a concrete one-entry map and a colliding mini-menu event. -/
theorem claim_C7_witness :
    mapGet [("https://www.avito.ru/cars", mkCat "Авто" "https://www.avito.ru/cars")]
        "https://www.avito.ru/cars" =
      some (mkCat "Авто" "https://www.avito.ru/cars") ∧
    mapGet
        (ruleMiniMenu
          [("https://www.avito.ru/cars", mkCat "Авто" "https://www.avito.ru/cars")]
          ("Другое", "/cars"))
        "https://www.avito.ru/cars" =
      some (mkCat "Авто" "https://www.avito.ru/cars") := by
  have h := claim_C7_categoryMerge [] [] [] [] []
  refine ⟨rfl, ?_⟩
  exact (h.2.2.1
    [("https://www.avito.ru/cars", mkCat "Авто" "https://www.avito.ru/cars")]
    ("Другое", "/cars") "https://www.avito.ru/cars"
    (mkCat "Авто" "https://www.avito.ru/cars") rfl (by decide)).2.1

/-! ## Claim C8: GetListings -/

/-- With a positive limit, the per-selector loop is exactly "accepted cards
in document order, truncated to the remaining budget". -/
theorem serpLoop_pos {limit : Int} (hl : limit > 0) (url : String) :
    ∀ (cards : List Listing) (count : ℕ),
      serpLoop limit url cards count =
        ((cards.filter acceptCard).take (limit.toNat - count)).map (setCatURL url) := by
  intro cards
  induction cards with
  | nil => intro count; simp [serpLoop]
  | cons card cards ih =>
    intro count
    by_cases hc : (count : Int) ≥ limit
    · have hguard : (limit > 0 && (count : Int) ≥ limit) = true := by
        simp [hl, hc]
      have htn : limit.toNat - count = 0 := by omega
      rw [serpLoop, if_pos hguard, ih count, htn]
      simp
    · have hguard : (limit > 0 && (count : Int) ≥ limit) = false := by
        simp [hc]
      rw [serpLoop, if_neg (by rw [hguard]; exact Bool.false_ne_true)]
      by_cases ha : acceptCard card = true
      · rw [if_pos ha, ih (count + 1)]
        rw [List.filter_cons_of_pos ha]
        have hn : limit.toNat - count = (limit.toNat - (count + 1)) + 1 := by omega
        rw [hn, List.take_succ_cons, List.map_cons]
      · rw [if_neg ha]
        rw [List.filter_cons_of_neg ha, ih count]

/-- With a non-positive limit the loop is unbounded: all accepted cards in
document order. -/
theorem serpLoop_nonpos {limit : Int} (hl : limit ≤ 0) (url : String) :
    ∀ (cards : List Listing) (count : ℕ),
      serpLoop limit url cards count = (cards.filter acceptCard).map (setCatURL url) := by
  intro cards
  induction cards with
  | nil => intro count; simp [serpLoop]
  | cons card cards ih =>
    intro count
    have hguard : (limit > 0 && (count : Int) ≥ limit) = false := by
      have : ¬(limit > 0) := by omega
      simp [this]
    rw [serpLoop, if_neg (by rw [hguard]; exact Bool.false_ne_true)]
    by_cases ha : acceptCard card = true
    · rw [if_pos ha, ih (count + 1), List.filter_cons_of_pos ha, List.map_cons]
    · rw [if_neg ha, List.filter_cons_of_neg ha, ih count]

/-- A selector with at least one accepted card produces a non-empty loop
result (for any limit). -/
theorem serpLoop_ne_nil {limit : Int} (url : String) {sel : List Listing}
    (h : ∃ card ∈ sel, acceptCard card = true) :
    serpLoop limit url sel 0 ≠ [] := by
  obtain ⟨card, hmem, hacc⟩ := h
  by_cases hl : limit > 0
  · rw [serpLoop_pos hl url sel 0]
    simp only [Nat.sub_zero, ne_eq, List.map_eq_nil_iff, List.take_eq_nil_iff]
    push_neg
    constructor
    · omega
    · intro hf
      rw [List.filter_eq_nil_iff] at hf
      exact hf card hmem (by simp [hacc])
  · rw [serpLoop_nonpos (by omega) url sel 0]
    simp only [ne_eq, List.map_eq_nil_iff, List.filter_eq_nil_iff]
    push_neg
    exact ⟨card, hmem, by simp [hacc]⟩

/-- The cascade stops at the first selector that yields at least one
accepted match: later selectors are never consulted. -/
theorem serpCascade_hit {limit : Int} (url : String) (sel : List Listing)
    (rest : List (List Listing)) (h : ∃ card ∈ sel, acceptCard card = true) :
    serpCascade limit url (sel :: rest) = serpLoop limit url sel 0 := by
  rw [serpCascade]
  rw [if_pos (by
    have := @serpLoop_ne_nil limit url sel h
    simpa [List.length_pos] using this)]

/-- With a positive limit the cascade never produces more than `limit`
listings. -/
theorem serpCascade_len {limit : Int} (hl : limit > 0) (url : String) :
    ∀ sels : List (List Listing), (serpCascade limit url sels).length ≤ limit.toNat := by
  intro sels
  induction sels with
  | nil => simp [serpCascade]
  | cons sel rest ih =>
    rw [serpCascade]
    split
    · rw [serpLoop_pos hl url sel 0]
      rw [List.length_map]
      calc (List.take (limit.toNat - 0) (sel.filter acceptCard)).length
          ≤ limit.toNat - 0 := by
            rw [List.length_take]; omega
        _ ≤ limit.toNat := by omega
    · exact ih

/-- The body-fallback scan also respects the limit. -/
theorem fallbackLoop_len {limit : Int} (hl : limit > 0) (url : String) :
    ∀ (anchors : List Anchor) (count : ℕ),
      (fallbackLoop limit url anchors count).length ≤ limit.toNat - count := by
  intro anchors
  induction anchors with
  | nil => intro count; simp [fallbackLoop]
  | cons a rest ih =>
    intro count
    by_cases hc : (count : Int) ≥ limit
    · rw [fallbackLoop, if_pos (by simp [hl, hc])]
      exact ih count
    · rw [fallbackLoop, if_neg (by simp [hc])]
      split
      · split
        · rw [List.length_cons]
          have := ih (count + 1)
          omega
        · exact ih count
      · exact ih count

/-- Claim C8: on a non-catalog page, `GetListings` with a positive limit
returns at most `limit` listings; the per-selector extraction is the
accepted cards in document order, truncated to `limit` when positive and
unbounded when `limit ≤ 0`; the item-card selector cascade stops at the
first selector yielding at least one accepted match; and with `limit = 2`
on a page whose results container yields 5 accepted item cards, exactly the
first 2 summaries are returned, in document order (then enriched). -/
theorem claim_C8_getListings (categoryURL : String) (limit : Int) (pg : SerpPage)
    (enrich : Listing → Listing) (_hcat : isCatalogURL categoryURL = false) :
    (limit > 0 → (GetListings categoryURL limit pg enrich).length ≤ limit.toNat) ∧
    (limit > 0 → ∀ (cards : List Listing),
      serpLoop limit categoryURL cards 0 =
        ((cards.filter acceptCard).take limit.toNat).map (setCatURL categoryURL)) ∧
    (limit ≤ 0 → ∀ (cards : List Listing),
      serpLoop limit categoryURL cards 0 =
        (cards.filter acceptCard).map (setCatURL categoryURL)) ∧
    (∀ (sel : List Listing) (rest : List (List Listing)),
      (∃ card ∈ sel, acceptCard card = true) →
      serpCascade limit categoryURL (sel :: rest) = serpLoop limit categoryURL sel 0) ∧
    (∀ c1 c2 c3 c4 c5 : Listing, ∀ anchors : List Anchor,
      acceptCard c1 = true → acceptCard c2 = true → acceptCard c3 = true →
      acceptCard c4 = true → acceptCard c5 = true →
      GetListings categoryURL 2 ⟨[[c1, c2, c3, c4, c5]], anchors⟩ enrich =
        [setCatURL categoryURL c1, setCatURL categoryURL c2].map
          (fun l => if l.url ≠ "" then enrich l else l)) := by
  refine ⟨?_, ?_, ?_, ?_, ?_⟩
  · intro hl
    simp only [GetListings]
    have hserp := serpCascade_len hl categoryURL pg.cards
    have hfall := fallbackLoop_len hl categoryURL pg.anchors 0
    by_cases hs : (serpCascade limit categoryURL pg.cards).length > 0
    · rw [if_pos hs, if_pos hs, List.length_map]
      exact hserp
    · rw [if_neg hs]
      by_cases hf : (fallbackLoop limit categoryURL pg.anchors 0).length > 0
      · rw [if_pos hf, List.length_map]
        omega
      · rw [if_neg hf]
        omega
  · intro hl cards
    have := serpLoop_pos hl categoryURL cards 0
    simpa using this
  · intro hl cards
    exact serpLoop_nonpos hl categoryURL cards 0
  · intro sel rest h
    exact serpCascade_hit categoryURL sel rest h
  · intro c1 c2 c3 c4 c5 anchors h1 h2 h3 h4 h5
    have hcascade : serpCascade 2 categoryURL [[c1, c2, c3, c4, c5]] =
        serpLoop 2 categoryURL [c1, c2, c3, c4, c5] 0 :=
      serpCascade_hit categoryURL _ _ ⟨c1, by simp, h1⟩
    have hloop : serpLoop 2 categoryURL [c1, c2, c3, c4, c5] 0 =
        [setCatURL categoryURL c1, setCatURL categoryURL c2] := by
      rw [serpLoop_pos (by omega) categoryURL]
      rw [List.filter_cons_of_pos h1, List.filter_cons_of_pos h2,
        List.filter_cons_of_pos h3, List.filter_cons_of_pos h4,
        List.filter_cons_of_pos h5]
      rfl
    rw [GetListings]
    simp only [hcascade, hloop]
    rfl

/-- Witness for claim C8: the theorem applied at a concrete category URL,
limit 2, a single selector yielding five accepted cards, and the identity
enricher. -/
theorem claim_C8_witness :
    isCatalogURL "https://www.avito.ru/all/avtomobili" = false ∧
    acceptCard { zeroListing with id := "1", title := "т1" } = true ∧
    GetListings "https://www.avito.ru/all/avtomobili" 2
        ⟨[[{ zeroListing with id := "1", title := "т1" },
           { zeroListing with id := "2", title := "т2" },
           { zeroListing with id := "3", title := "т3" },
           { zeroListing with id := "4", title := "т4" },
           { zeroListing with id := "5", title := "т5" }]], []⟩
        (fun l => l) =
      [setCatURL "https://www.avito.ru/all/avtomobili" { zeroListing with id := "1", title := "т1" },
       setCatURL "https://www.avito.ru/all/avtomobili" { zeroListing with id := "2", title := "т2" }].map
        (fun l => if l.url ≠ "" then l else l) := by
  have h := claim_C8_getListings "https://www.avito.ru/all/avtomobili" 2
    ⟨[[{ zeroListing with id := "1", title := "т1" },
       { zeroListing with id := "2", title := "т2" },
       { zeroListing with id := "3", title := "т3" },
       { zeroListing with id := "4", title := "т4" },
       { zeroListing with id := "5", title := "т5" }]], []⟩
    (fun l => l) (by decide)
  refine ⟨by decide, by decide, ?_⟩
  exact h.2.2.2.2
    { zeroListing with id := "1", title := "т1" }
    { zeroListing with id := "2", title := "т2" }
    { zeroListing with id := "3", title := "т3" }
    { zeroListing with id := "4", title := "т4" }
    { zeroListing with id := "5", title := "т5" } []
    (by decide) (by decide) (by decide) (by decide) (by decide)

/-! ## Claim C9: waitForRateLimit -/

/-- Claim C9 concerns a code bug: `lastRequestTime` is a plain package-level
variable and `waitForRateLimit` uses no mutex, atomic, or other
synchronization, so concurrent acquisitions do not serialize. In the
interleaving semantics, the schedule in which both calls read
`lastRequestTime` before either writes it (`A`-read, `B`-read, neither
sleeps, both write) is permitted by the code and makes both calls record
fetch timestamp 0 — the second call's timestamp is not `minRequestInterval`
after the first's, refuting the claimed serialization. The serialized
schedule (all of `A`, then all of `B`) does yield the claimed ≥ 3-second
gap, which is exactly what a mutual-exclusion lock around the function
would enforce; the code merely lacks it. -/
theorem claim_C9_rateLimiter :
    (rlRun [false, true, false, true, false, true]).thA.finish = some 0 ∧
    (rlRun [false, true, false, true, false, true]).thB.finish = some 0 ∧
    ¬((0 : Int) ≥ 0 + minRequestInterval) ∧
    (rlRun [false, false, false, true, true, true]).thA.finish = some 0 ∧
    (rlRun [false, false, false, true, true, true]).thB.finish = some 3 ∧
    ((3 : Int) ≥ 0 + minRequestInterval) := by decide

/-! ## Claim C10: static fallback GetCategories -/

/-- Claim C10: the static fallback `GetCategories` is a pure constant
source: it returns a nil error and a tree of exactly 11 top-level
categories, each with a non-empty name and at least one subcategory, and
every URL anywhere in the tree is absolute, beginning with
`https://www.avito.ru` — the absolute-canonical-URL invariant holds without
normalization. -/
theorem claim_C10_staticCategories :
    GetCategoriesStatic.2 = none ∧
    GetCategoriesStatic.1.length = 11 ∧
    (GetCategoriesStatic.1.all fun c =>
      (c.name != "") && !c.subcategories.isEmpty) = true ∧
    ((catsURLs GetCategoriesStatic.1).all fun u =>
      strStarts u "https://www.avito.ru") = true :=
  ⟨rfl, rfl, rfl, rfl⟩
